import Mathlib

/-
  Verification of the ablation agent loop of this repository
  (src/ablation/core_ablation.py, src/agent/tool_runtime.py,
  src/agent/utils.py) against its natural-language specification.

  The development shallowly embeds the parts of the code the claims are
  about: the conversation-truncation routine, the tool runtime with its
  memoization cache, the unified-diff validator, the LLM retry loops with
  their API-call counters, the TDD RED gate, the result constructors of
  the loop's exit paths, and the patch-phase feedback state machine.
-/

/- ===================== Section 1: conversation messages ==================
   The truncation code in run_agent_loop_ablation inspects only the role
   of a message and the length of its tool_calls list.  A message is
   therefore modelled by its role, the number of tool calls it carries
   (0 stands for a missing or empty tool_calls field, matching Python
   truthiness of m.get("tool_calls")), and an abstract content tag that
   only serves to tell messages apart. -/

/-- Role field of a conversation message dict. -/
inductive Role where
  | system
  | user
  | assistant
  | tool
deriving DecidableEq

/-- Shape model of one conversation message. -/
structure Msg where
  role : Role
  toolCalls : Nat := 0
  tag : Nat := 0
deriving DecidableEq

/-- Test m.get("role") == "tool". -/
def isToolMsg (m : Msg) : Bool := m.role == Role.tool

/-- Test m.get("role") == "system". -/
def isSystemMsg (m : Msg) : Bool := m.role == Role.system

/-- Test the Python condition m.get("role") == "assistant" and m.get("tool_calls")
    (an assistant message with a non-empty tool_calls list). -/
def hasCalls (m : Msg) : Bool := m.role == Role.assistant && m.toolCalls != 0

/-- Length of the consecutive run of tool messages right after index i,
    mirroring the inner loops "for j in range(i+1, len(msgs)): if role ==
    tool: count += 1 else: break" of core_ablation.py (lines 1041-1046,
    1074-1079 and the patch-phase copies). -/
def runLenAt (l : List Msg) (i : Nat) : Nat :=
  ((l.drop (i + 1)).takeWhile isToolMsg).length

/-- Descending index list [hi-1, hi-2, ..., lo]; the Lean counterpart of
    Python range(hi - 1, lo - 1, -1). -/
def descRange (lo : Nat) : Nat → List Nat
  | 0 => []
  | h + 1 => if lo ≤ h then h :: descRange lo h else []

/-- Backward scan for a safe cut point (core_ablation.py lines 1033-1053 and
    1440-1458): walking i downward, the first assistant message with tool
    calls whose tool-response run reaches the cut point moves the cut to
    that assistant; otherwise the cut point is unchanged. -/
def findSafeCutAux (l : List Msg) (cut : Nat) : List Nat → Nat
  | [] => cut
  | i :: rest =>
    match l[i]? with
    | some m =>
      if hasCalls m then
        if 0 < runLenAt l i ∧ cut ≤ i + runLenAt l i then i
        else findSafeCutAux l cut rest
      else findSafeCutAux l cut rest
    | none => findSafeCutAux l cut rest

/-- safe_cut_point computation: scan indices cut-1 down to keepFirst. -/
def findSafeCut (l : List Msg) (keepFirst cut : Nat) : Nat :=
  findSafeCutAux l cut (descRange keepFirst cut)

/-- Final safety pass of the truncation (core_ablation.py lines 1059-1095
    and 1464-1500): every assistant message whose tool calls are followed
    by fewer tool responses than tool calls is removed together with those
    responses.  The Python code first collects the indices of such
    assistants (computed on the kept list before any removal) and then
    removes each block [assistant, its consecutive tool responses) in
    descending index order; since those blocks are pairwise disjoint and a
    removal never changes another assistant's response run (each removal
    glues the predecessor to a non-tool message), the pass is expressed
    here as one left-to-right structural sweep. -/
def removeIncomplete : List Msg → List Msg
  | [] => []
  | m :: rest =>
    if hasCalls m then
      let run := rest.takeWhile isToolMsg
      if run.length < m.toolCalls then
        removeIncomplete (rest.drop run.length)
      else
        m :: (run ++ removeIncomplete (rest.drop run.length))
    else
      m :: removeIncomplete rest
termination_by l => l.length
decreasing_by
  · simp only [List.length_drop, List.length_cons]
    omega
  · simp only [List.length_drop, List.length_cons]
    omega
  · simp

/-- Cut-and-splice stage of the truncation: when the list is longer than
    keepFirst + keepLast, keep the first keepFirst entries plus everything
    from the (safety-adjusted) cut point on (core_ablation.py lines
    1027-1057 and 1436-1462). -/
def pruneCore (keepFirst keepLast : Nat) (l : List Msg) : List Msg :=
  if keepFirst + keepLast < l.length then
    l.take keepFirst ++ l.drop (findSafeCut l keepFirst (l.length - keepLast))
  else l

/-- Localization-phase truncation (core_ablation.py lines 1017-1100):
    fires when the list exceeds 30 messages; system messages are set
    aside, the non-system messages are cut with keep_first = 3 and
    keep_last = 15, the safety pass runs on the kept list, and the system
    messages are prepended again. -/
def locTruncate (msgs : List Msg) : List Msg :=
  if 30 < msgs.length then
    msgs.filter isSystemMsg
      ++ removeIncomplete (pruneCore 3 15 (msgs.filter fun m => !isSystemMsg m))
  else msgs

/-- Patch-phase truncation (core_ablation.py lines 1429-1505): fires
    when the list exceeds 30 messages; the whole list (system messages
    included) is cut with keep_first = 2 and keep_last = 20, then the
    safety pass runs. -/
def patchTruncate (msgs : List Msg) : List Msg :=
  if 30 < msgs.length then removeIncomplete (pruneCore 2 20 msgs)
  else msgs

/- Spec-side predicates on conversation lists.  These are written from the
   specification's invariant wording, not from the code. -/

/-- Claim property (spec section 8, invariant 1): every assistant message
    carrying n tool calls is immediately followed by exactly n tool
    messages before any other message; an assistant at the end of the list
    with outstanding tool calls violates it. -/
def okShape : List Msg → Bool
  | [] => true
  | m :: rest =>
    if hasCalls m then
      (rest.takeWhile isToolMsg).length == m.toolCalls
        && okShape (rest.drop (rest.takeWhile isToolMsg).length)
    else okShape rest
termination_by l => l.length
decreasing_by
  · simp only [List.length_drop, List.length_cons]
    omega
  · simp

/-- Well-formed conversation transcript, as produced by the agent loop:
    a sequence of blocks, each block being either a single non-tool
    message without tool calls or an assistant with n > 0 tool calls
    followed by exactly its n tool responses.  In particular a tool
    message never occurs outside such a run. -/
def wfConv : List Msg → Bool
  | [] => true
  | m :: rest =>
    if isToolMsg m then false
    else if hasCalls m then
      (rest.takeWhile isToolMsg).length == m.toolCalls
        && wfConv (rest.drop (rest.takeWhile isToolMsg).length)
    else wfConv rest
termination_by l => l.length
decreasing_by
  · simp only [List.length_drop, List.length_cons]
    omega
  · simp

/-- Relaxed transcript shape: like wfConv, but an assistant's response run
    may have been cut short (run length at most the number of tool calls).
    The cut-and-splice stage produces lists of this shape. -/
def awfConv : List Msg → Bool
  | [] => true
  | m :: rest =>
    if isToolMsg m then false
    else if hasCalls m then
      decide ((rest.takeWhile isToolMsg).length ≤ m.toolCalls)
        && awfConv (rest.drop (rest.takeWhile isToolMsg).length)
    else awfConv rest
termination_by l => l.length
decreasing_by
  · simp only [List.length_drop, List.length_cons]
    omega
  · simp

/-- Inductive presentation of wfConv, convenient for block-structure
    induction. -/
inductive WFP : List Msg → Prop where
  | nil : WFP []
  | single : ∀ (m : Msg) (rest : List Msg), m.role ≠ Role.tool →
      (m.role = Role.assistant → m.toolCalls = 0) → WFP rest → WFP (m :: rest)
  | block : ∀ (m : Msg) (run rest : List Msg), m.role = Role.assistant →
      m.toolCalls = run.length → 0 < run.length →
      (∀ x ∈ run, x.role = Role.tool) → WFP rest →
      WFP (m :: (run ++ rest))

/-- The list does not start with a tool message (vacuously true of the
    empty list); the shape carried across the truncation stages. -/
def headNotTool (l : List Msg) : Prop :=
  ∀ m, l.head? = some m → isToolMsg m = false

/-- Modelled from the spec wording of claim C4: the truncation is claimed
    to preserve, in every phase, all system messages plus the first 3 and
    the last 15 non-system messages.  This claim-side selection is
    compared against the truncation embedded from the code. -/
def claimedCapSelection (msgs : List Msg) : List Msg :=
  msgs.filter isSystemMsg
    ++ ((msgs.filter fun m => !isSystemMsg m).take 3
        ++ (msgs.filter fun m => !isSystemMsg m).drop
            ((msgs.filter fun m => !isSystemMsg m).length - 15))

/- ======================= Section 2: tool runtime =========================
   ToolRuntime.handle_tool_calls (src/agent/tool_runtime.py) together with
   the memoization cache of src/agent/utils.py.  Tool argument dicts are
   modelled by their canonical (sorted-keys) encoding, an abstract Nat;
   the md5 cache key of get_cache_key is modelled by the pair
   (name, canonical arguments), which the hash represents injectively.
   A registered callable is invoked as self.func_map[name](**args) with
   no try/except (tool_runtime.py line 64): when the argument dict does
   not bind the callable's required parameters (e.g. read_file_wrapper's
   path, tools_localize.py line 77) the invocation raises TypeError and
   the exception propagates out of handle_tool_calls.  A callable is
   therefore embedded as Nat → Option ToolRes, none standing for the
   raise, and the runtime's results are Option-valued: none means the
   Python call raised and no message list was returned. -/

/-- Result dict returned by a tool callable: the ok flag the cache policy
    looks at, plus an abstract payload standing for the remaining
    fields. -/
structure ToolRes where
  ok : Bool
  val : Nat
deriving DecidableEq

/-- A tool result as it appears in a tool message: the base dict plus the
    _cached marker that get_cached_result may add (absent key modelled as
    false). -/
structure CachedRes where
  base : ToolRes
  cached : Bool
deriving DecidableEq

/-- Whitelist in cache_tool_result (src/agent/utils.py line 39). -/
def cacheableFunctions : List String :=
  ["read_file", "read_span", "symbol_lookup", "find_references"]

/-- The process-wide tool-call cache dict, keyed by (name, canonical
    arguments). -/
abbrev ToolCache := List ((String × Nat) × ToolRes)

/-- Dict lookup in the cache (newest binding wins, matching dict
    overwrite). -/
def lookupCache : ToolCache → String × Nat → Option ToolRes
  | [], _ => none
  | (k0, r) :: rest, k => if k0 = k then some r else lookupCache rest k

/-- get_cached_result (src/agent/utils.py lines 24-33): on a hit, return a
    copy of the stored result with _cached set to true.  The lookup is
    performed for every tool; only storing is restricted. -/
def get_cached_result (c : ToolCache) (name : String) (args : Nat) : Option CachedRes :=
  match lookupCache c (name, args) with
  | some r => some { base := r, cached := true }
  | none => none

/-- cache_tool_result (src/agent/utils.py lines 36-42): store only results
    of whitelisted functions whose ok field is truthy. -/
def cache_tool_result (c : ToolCache) (name : String) (args : Nat) (r : ToolRes) : ToolCache :=
  if name ∈ cacheableFunctions ∧ r.ok then ((name, args), r) :: c else c

/-- Raw arguments of an LLM tool call, as seen by the JSON parsing and
    repair chain of handle_tool_calls (tool_runtime.py lines 14-39):
    either they parse, or they parse after the brace-trimming repair, or
    both parses fail and the empty dict is used. -/
inductive RawArgs where
  | parsed (a : Nat)
  | repaired (a : Nat)
  | broken
deriving DecidableEq

/-- One tool call requested by the LLM. -/
structure ToolCallRequest where
  id : Nat
  name : String
  args : RawArgs
deriving DecidableEq

/-- Argument value after the parse-and-repair chain (0 is the canonical
    encoding of the empty dict). -/
def parseToolArgs : RawArgs → Nat
  | RawArgs.parsed a => a
  | RawArgs.repaired a => a
  | RawArgs.broken => 0

/-- Content of an emitted tool message: either the unknown-tool error
    payload or a serialized tool result. -/
inductive ToolMsgContent where
  | unavailable
  | result (r : CachedRes)
deriving DecidableEq

/-- One message produced by handle_tool_calls (tool_runtime.py lines
    68-73). -/
structure ToolReply where
  role : Role
  tool_call_id : Nat
  name : String
  content : ToolMsgContent
deriving DecidableEq

/-- Outcome of processing a single tool call: the emitted message, the
    cache afterwards, and whether the tool function was actually
    executed (as opposed to a cache hit or an unknown tool). -/
structure CallOutcome where
  reply : ToolReply
  cacheAfter : ToolCache
  executed : Bool
deriving DecidableEq

/-- Body of the per-call loop of handle_tool_calls (tool_runtime.py lines
    12-73): parse arguments, emit the unavailable error if the name is not
    in func_map, otherwise consult the cache and execute on a miss; the
    execution at line 64 has no try/except, so a callable whose required
    parameters are not bound by the (possibly empty-dict-substituted)
    arguments raises TypeError out of the loop - the none outcome. -/
def handleOneCall (fm : String → Option (Nat → Option ToolRes)) (c : ToolCache)
    (tc : ToolCallRequest) : Option CallOutcome :=
  let args := parseToolArgs tc.args
  match fm tc.name with
  | none =>
      some { reply := { role := Role.tool, tool_call_id := tc.id, name := tc.name,
                        content := ToolMsgContent.unavailable },
             cacheAfter := c, executed := false }
  | some f =>
      match get_cached_result c tc.name args with
      | some r =>
          some { reply := { role := Role.tool, tool_call_id := tc.id, name := tc.name,
                            content := ToolMsgContent.result r },
                 cacheAfter := c, executed := false }
      | none =>
          match f args with
          | none => none
          | some r =>
              some { reply := { role := Role.tool, tool_call_id := tc.id, name := tc.name,
                                content := ToolMsgContent.result { base := r, cached := false } },
                     cacheAfter := cache_tool_result c tc.name args r, executed := true }

/-- handle_tool_calls: fold the per-call body over the batch, threading the
    cache; one tool message per input call when every executed call
    returns, none (the TypeError propagates, no list is returned) as soon
    as one raises. -/
def handle_tool_calls (fm : String → Option (Nat → Option ToolRes)) (c : ToolCache) :
    List ToolCallRequest → Option (List ToolReply × ToolCache)
  | [] => some ([], c)
  | tc :: rest =>
    match handleOneCall fm c tc with
    | none => none
    | some out =>
      match handle_tool_calls fm out.cacheAfter rest with
      | none => none
      | some next => some (out.reply :: next.fst, next.snd)

/-- Modelled from the spec wording of claim C8: the second result is
    claimed to equal the first modulo an added _cached marker. -/
def claimCachedCopy (r : CachedRes) : CachedRes := { r with cached := true }

/- ================== Section 3: unified diff validation ==================
   validate_unified_diff (core_ablation.py lines 68-147).  The function
   starts by calling splitlines, so a patch text is embedded as its list
   of lines, each line a list of characters; the only separator assumed is
   the newline, so a substring search that mentions a newline becomes a
   line-prefix search on non-initial lines. -/

/-- One line of a patch text. -/
abbrev DLine := List Char

/-- Prefix test on character lists (Python str.startswith). -/
def lineStarts : List Char → List Char → Bool
  | [], _ => true
  | _ :: _, [] => false
  | p :: ps, c :: cs => p == c && lineStarts ps cs

/-- Substring test on character lists (Python "sub in s" for patterns
    without a newline). -/
def lineHas (p : List Char) : List Char → Bool
  | [] => lineStarts p []
  | c :: cs => lineStarts p (c :: cs) || lineHas p cs

/-- startswith with a string pattern. -/
def startsW (s : String) (ln : DLine) : Bool := lineStarts s.toList ln

/-- Substring containment with a string pattern. -/
def hasSub (s : String) (ln : DLine) : Bool := lineHas s.toList ln

/-- Decimal value of a digit run. -/
def digitsToNat (ds : List Char) : Nat :=
  ds.foldl (fun acc c => acc * 10 + (c.toNat - 48)) 0

/-- Greedy parse of a non-empty digit run, as the regex group (\d+). -/
def parseDigits (cs : DLine) : Option (Nat × DLine) :=
  let ds := cs.takeWhile Char.isDigit
  if ds.length == 0 then none
  else some (digitsToNat ds, cs.drop ds.length)

/-- Parse (\d+)(?:,(\d+))? - a start number with an optional comma count;
    when the comma is not followed by digits the optional group is not
    taken, exactly as the regex backtracks. -/
def parseCount (cs : DLine) : Option (Nat × Option Nat × DLine) :=
  match parseDigits cs with
  | none => none
  | some (a, rest) =>
    match rest with
    | ',' :: rest2 =>
      match parseDigits rest2 with
      | some (b, rest3) => some (a, some b, rest3)
      | none => some (a, none, rest)
    | _ => some (a, none, rest)

/-- Anchored match of the hunk-header regex
    (core_ablation.py line 88) returning (old count, new count) with the
    or-1 defaults of lines 99-100.  Trailing content after the closing @@
    is allowed, as with re.match. -/
def hunkHeader (ln : DLine) : Option (Nat × Nat) :=
  if startsW "@@ -" ln then
    match parseCount (ln.drop 4) with
    | none => none
    | some (_, bOpt, r1) =>
      match r1 with
      | ' ' :: '+' :: r2 =>
        match parseCount r2 with
        | none => none
        | some (_, dOpt, r3) =>
          if startsW " @@" r3 then some (bOpt.getD 1, dOpt.getD 1) else none
      | _ => none
  else none

/-- Lines that terminate a hunk body (core_ablation.py lines 108-111). -/
def isHunkBoundary (ln : DLine) : Bool :=
  startsW "@@ " ln || startsW "diff --git" ln || startsW "--- " ln || startsW "+++ " ln

/-- Result of scanning one hunk body. -/
inductive BodyScan where
  | counts (oldSeen newSeen consumed : Nat)
  | badLine (ln : DLine)
deriving DecidableEq

/-- Body scan of one hunk (core_ablation.py lines 103-129): count
    context/minus lines into oldSeen and context/plus lines into newSeen,
    skip the no-newline marker, stop at a boundary, and report any other
    line as invalid.  The inner minus/plus guards against the file-header
    forms mirror the source even though such lines already stop the scan
    as boundaries. -/
def scanBody : List DLine → Nat → Nat → Nat → BodyScan
  | [], o, n, k => BodyScan.counts o n k
  | ln :: rest, o, n, k =>
    if isHunkBoundary ln then BodyScan.counts o n k
    else if startsW "\\ No newline at end of file" ln then scanBody rest o n (k + 1)
    else if startsW " " ln then scanBody rest (o + 1) (n + 1) (k + 1)
    else if startsW "-" ln then
      if startsW "--- " ln then scanBody rest o n (k + 1)
      else scanBody rest (o + 1) n (k + 1)
    else if startsW "+" ln then
      if startsW "+++ " ln then scanBody rest o n (k + 1)
      else scanBody rest o (n + 1) (k + 1)
    else BodyScan.badLine ln

/-- Validation verdict, mirroring the dicts returned by
    validate_unified_diff; countMismatch carries the hunk_header,
    expected_old, expected_new, seen_old and seen_new fields of the
    mismatch dict (lines 131-140). -/
inductive DiffCheck where
  | ok
  | emptyPatch
  | placeholder
  | notUnifiedDiff
  | invalidHunkLine (ln : DLine)
  | countMismatch (header : DLine) (expectedOld expectedNew seenOld seenNew : Nat)
  | noHunks
deriving DecidableEq

/-- Outer hunk loop of validate_unified_diff (lines 90-146): skip
    non-header lines, and for each header scan its body and compare the
    counts. -/
def validateHunks : List DLine → Nat → DiffCheck
  | [], hunks => if hunks == 0 then DiffCheck.noHunks else DiffCheck.ok
  | ln :: rest, hunks =>
    match hunkHeader ln with
    | none => validateHunks rest hunks
    | some (oc, nc) =>
      match scanBody rest 0 0 0 with
      | BodyScan.badLine bad => DiffCheck.invalidHunkLine bad
      | BodyScan.counts o n k =>
        if o != oc || n != nc then DiffCheck.countMismatch ln oc nc o n
        else validateHunks (rest.drop k) (hunks + 1)
termination_by l _ => l.length
decreasing_by
  · simp
  · simp only [List.length_drop, List.length_cons]
    omega

/-- Whitespace characters of Python str.strip (ASCII subset). -/
def isBlankChar (c : Char) : Bool :=
  c == ' ' || c == '\t' || c == '\n' || c == '\r' || c == '\x0b' || c == '\x0c'

/-- Test for "not text or not text.strip()" on the line list. -/
def isBlankText (lines : List DLine) : Bool :=
  lines.all fun ln => ln.all isBlankChar

/-- is_unified_diff (core_ablation.py lines 64-66): the text must contain
    "diff --git" somewhere, and a newline followed by "--- " or "+++",
    i.e. a non-initial line starting with one of those. -/
def is_unified_diff (lines : List DLine) : Bool :=
  lines.any (hasSub "diff --git")
    && ((lines.drop 1).any (startsW "--- ") || (lines.drop 1).any (startsW "+++"))

/-- validate_unified_diff (core_ablation.py lines 68-147). -/
def validate_unified_diff (lines : List DLine) : DiffCheck :=
  if isBlankText lines then DiffCheck.emptyPatch
  else if lines.any (hasSub "...") then DiffCheck.placeholder
  else if !is_unified_diff lines then DiffCheck.notUnifiedDiff
  else validateHunks lines 0

/-- Modelled from the claim wording of C3: the body of a hunk, the lines
    up to the next hunk header or file header. -/
def specHunkBody (rest : List DLine) : List DLine :=
  rest.takeWhile fun ln => !isHunkBoundary ln

/-- Modelled from the claim wording of C3: number of body lines starting
    with a space or a minus (file headers excluded). -/
def specOldCount (body : List DLine) : Nat :=
  (body.filter fun ln =>
    startsW " " ln || (startsW "-" ln && !startsW "--- " ln)).length

/-- Modelled from the claim wording of C3: number of body lines starting
    with a space or a plus (file headers excluded). -/
def specNewCount (body : List DLine) : Nat :=
  (body.filter fun ln =>
    startsW " " ln || (startsW "+" ln && !startsW "+++ " ln)).length

/- ===================== Section 4: LLM retry loops ========================
   The per-call retry loops of run_agent_loop_ablation (localization:
   lines 859-917, patch: lines 1286-1346).  An attempt either succeeds or
   raises; raises are classified into fatal quota errors, rate limits,
   temporary errors and everything else.  The loops differ only in what
   they do after giving up, which does not involve the metrics counters:
   the counter update is the guarded block at lines 875-879 and 1302-1306,
   which increments the phase counters and total_api_calls only when
   retry_count is 0 at the moment of success. -/

/-- Classified outcome of one attempt to call the LLM API. -/
inductive ApiAttempt where
  | ok
  | quotaFatal
  | rateLimit
  | temporary
  | other
deriving DecidableEq

/-- Exit of a retry loop: success carries the amount added to each of the
    phase api-call counters and total_api_calls by that loop. -/
inductive RetryExit where
  | success (counterInc : Nat)
  | fatalQuota
  | failed
deriving DecidableEq

/-- The retry loop with max_retries = 5, written with fuel = 5 - retry_count
    so that the recursion is structural: the while guard retry_count < 5
    becomes fuel > 0, and the post-increment guard retry_count < 5 becomes
    fuel - 1 > 0. -/
def llmRetryGo (att : Nat → ApiAttempt) : Nat → Nat → RetryExit
  | 0, _ => RetryExit.failed
  | fuel + 1, rc =>
    match att rc with
    | ApiAttempt.ok => RetryExit.success (if rc == 0 then 1 else 0)
    | ApiAttempt.quotaFatal => RetryExit.fatalQuota
    | ApiAttempt.rateLimit =>
        if 0 < fuel then llmRetryGo att fuel (rc + 1) else RetryExit.failed
    | ApiAttempt.temporary =>
        if 0 < fuel then llmRetryGo att fuel (rc + 1) else RetryExit.failed
    | ApiAttempt.other => RetryExit.failed

/-- Localization-phase LLM call with retry (lines 859-917). -/
def llmRetryLoc (att : Nat → ApiAttempt) : RetryExit := llmRetryGo att 5 0

/-- Patch-phase LLM call with retry (lines 1286-1346); identical counter
    behaviour, only the failure exits continue the patch loop instead of
    returning. -/
def llmRetryPatch (att : Nat → ApiAttempt) : RetryExit := llmRetryGo att 5 0

/- ======================= Section 5: TDD RED gate =========================
   The RED verification block of run_agent_loop_ablation (lines 517-596).
   The whole block, including the verify_red call and all of its fatal
   exits, sits inside the conditional
   "check_compile" in tool_runtime.func_map. -/

/-- Result of run_one_test as consumed by the gate: the ran flag and the
    return code (None modelled as none). -/
structure RedRes where
  ran : Bool
  rc : Option Int
deriving DecidableEq

/-- Fatal exits of the gate. -/
inductive GateErr where
  | compileFailed
  | infra
  | alreadyPasses
  | collectErr
  | noVerifyRed
deriving DecidableEq

/-- Outcome of the gate block: an optional fatal error (the loop returns
    ok=false immediately when set), the tdd_gate_red_verified metric, and
    whether verify_red was invoked at all. -/
structure GateRes where
  fatal : Option GateErr
  redVerified : Bool
  redCalled : Bool
deriving DecidableEq

/-- The RED gate block (core_ablation.py lines 517-596).  Integer return
    codes pass through the int coercion of lines 570-573 unchanged. -/
def tddGateStage (enableTdd verifyRedCfg hasCheckCompile hasVerifyRed : Bool)
    (compileOk : Bool) (red : RedRes) : GateRes :=
  if enableTdd && verifyRedCfg then
    if hasCheckCompile then
      if !compileOk then
        { fatal := some GateErr.compileFailed, redVerified := false, redCalled := false }
      else if hasVerifyRed then
        if !red.ran ∨ red.rc = none ∨ red.rc = some (-1) ∨ red.rc = some 255 then
          { fatal := some GateErr.infra, redVerified := false, redCalled := true }
        else if red.rc = some 0 then
          { fatal := some GateErr.alreadyPasses, redVerified := false, redCalled := true }
        else if red.rc = some 2 ∨ red.rc = some 4 then
          { fatal := some GateErr.collectErr, redVerified := false, redCalled := true }
        else { fatal := none, redVerified := true, redCalled := true }
      else { fatal := some GateErr.noVerifyRed, redVerified := false, redCalled := false }
    else { fatal := none, redVerified := false, redCalled := false }
  else { fatal := none, redVerified := false, redCalled := false }

/- ==================== Section 6: exit-path results =======================
   The result dicts run_agent_loop_ablation returns.  Every exit except
   two goes through _make_error_result (lines 423-438) or one of the
   inline constructions that set metrics["runtime_seconds"] first; the two
   workdir-lost returns (lines 1983-1988 and 2083-2103) build a literal
   dict with only ok, iterations, patch and error keys.  A result is
   modelled by its ok flag, iterations, error kind and metrics, with
   metrics = none meaning the metrics key is absent. -/

/-- The metrics dict, reduced to the field the claim is about. -/
structure LoopMetrics where
  runtime_seconds : Nat
deriving DecidableEq

/-- Error kinds of the terminal results. -/
inductive ExitErr where
  | harnessFailed
  | llmFailed
  | timeout
  | workdirLostApply
  | workdirLostCompile
  | maxIters
deriving DecidableEq

/-- Terminal result of the loop. -/
structure RunResult where
  ok : Bool
  iterations : Option Nat
  err : Option ExitErr
  metrics : Option LoopMetrics
deriving DecidableEq

/-- _make_error_result (lines 423-438): records runtime_seconds and embeds
    the metrics dict. -/
def make_error_result (e : ExitErr) (elapsed : Nat) : RunResult :=
  { ok := false, iterations := none, err := some e,
    metrics := some { runtime_seconds := elapsed } }

/-- Timeout returns (lines 643-661 and the copies inside the localize and
    patch loops): runtime_seconds is recorded first. -/
def timeoutResult (it elapsed : Nat) : RunResult :=
  { ok := false, iterations := some (it - 1), err := some ExitErr.timeout,
    metrics := some { runtime_seconds := elapsed } }

/-- Success return (lines 2341-2360). -/
def successResult (it elapsed : Nat) : RunResult :=
  { ok := true, iterations := some it, err := none,
    metrics := some { runtime_seconds := elapsed } }

/-- Max-iterations return (lines 2448-2467). -/
def maxItersResult (maxIters elapsed : Nat) : RunResult :=
  { ok := false, iterations := some maxIters, err := some ExitErr.maxIters,
    metrics := some { runtime_seconds := elapsed } }

/-- Return dict built at lines 1983-1988 when the workdir disappears
    during patch apply and recovery fails: only ok, iterations, patch and
    error keys, no metrics key at all. -/
def workdirLostApplyResult (it : Nat) : RunResult :=
  { ok := false, iterations := some it, err := some ExitErr.workdirLostApply,
    metrics := none }

/-- Return dicts built at lines 2083-2103 (three copies) when the workdir
    disappears before the standalone compile gate: again no metrics
    key. -/
def workdirLostCompileResult (it : Nat) : RunResult :=
  { ok := false, iterations := some it, err := some ExitErr.workdirLostCompile,
    metrics := none }

/- ================= Section 7: patch-phase state machine ==================
   The patch loop of run_agent_loop_ablation (lines 1183-2432) restricted
   to the state the force_structured_edits flag interacts with.  The loop
   is driven by the sequence of LLM turns; everything the environment
   decides (validator outcomes, git apply, compile, GREEN and validation
   results) is carried as oracle data on the turn.  Wall-clock timeouts
   and workdir loss are outside this model.  The per-iteration locals
   (force_structured_edits at line 1247, the failure-summary state of
   lines 1203-1205, and all the budget counters of lines 1188-1198) are
   re-initialized at the start of every iteration's patch phase. -/

/-- Failure signature payloads of _set_patch_fail_summary; the distinct
    constructors model the distinct signature strings, with Nat arguments
    standing for environment-produced message text (truncation to 200
    characters keeps distinct signatures distinct in the model). -/
inductive PSig where
  | emptyPatch
  | expectedStructured
  | validatorDetail (n : Nat)
  | candsParseFail (n : Nat)
  | toolUnavailable
  | candsFailed (n : Nat)
  | compileList (sigs : List Nat)
  | compileSig (n : Nat)
  | applySig (n : Nat)
  | patchTextNone
  | greenSig (n : Nat)
  | valSig (n : Nat)
deriving DecidableEq

/-- Failure types of the feedback controller. -/
inductive FailType where
  | formatError
  | applyError
  | compileError
  | candidateError
  | validationFailed
  | greenFailed
deriving DecidableEq

/-- Configuration bits the patch loop reads.  compileGate combines
    enable_patch_compile_gate, use_compile_gate and the availability of
    check_compile; greenGate combines enable_tdd_gate, verify_green_test
    and the availability of verify_green; applyEditsAvailable covers
    apply_edits being registered and the workdir being known.
    get_git_diff is always registered for the patch phase. -/
structure PCfg where
  useUnifiedDiff : Bool
  compileGate : Bool
  greenGate : Bool
  applyEditsAvailable : Bool
  maxPatchApi : Nat
  maxConsecDirect : Nat
  maxToolCalls : Nat
  maxCompileFails : Nat
  maxGitApplyFails : Nat
deriving DecidableEq

/-- Patch-phase local state (lines 1188-1247). -/
structure PSt where
  force : Bool
  lastFailType : Option FailType
  lastFailSig : Option PSig
  repeatedFail : Nat
  consecDirect : Nat
  apiCount : Nat
  toolCount : Nat
  gitApplyFails : Nat
  compileFails : Nat
deriving DecidableEq

/-- Fresh per-iteration state, as initialized at lines 1188-1247. -/
def initPSt : PSt :=
  { force := false, lastFailType := none, lastFailSig := none, repeatedFail := 0,
    consecDirect := 0, apiCount := 0, toolCount := 0, gitApplyFails := 0,
    compileFails := 0 }

/-- _set_patch_fail_summary (lines 1207-1239): bump or reset the repeat
    counter by comparing (type, signature) with the stored pair, record
    the new pair, and reset consecutive_direct_patches. -/
def setFailSummary (st : PSt) (ftype : FailType) (sig : PSig) : PSt :=
  let rep := if st.lastFailType = some ftype ∧ st.lastFailSig = some sig then
    st.repeatedFail + 1 else 1
  { st with
    repeatedFail := rep
    lastFailType := some ftype
    lastFailSig := some sig
    consecDirect := 0 }

/-- _should_stop_due_to_repeat (lines 1241-1245). -/
def shouldStopRepeat (st : PSt) : Bool :=
  if st.lastFailType = some FailType.formatError then decide (4 ≤ st.repeatedFail)
  else decide (2 ≤ st.repeatedFail)

/-- Oracle for the pipeline a patch goes through once accepted: git
    apply outcome and classification inputs, then the standalone compile
    gate, the GREEN test and full validation. -/
structure ApplyPath where
  applyOk : Bool
  applyCheckFailed : Bool
  formatStderr : Bool
  applySig : Nat
  compileOk : Bool
  compileSig : Nat
  greenPass : Bool
  greenSig : Nat
  validationPassed : Bool
  valSig : Nat
deriving DecidableEq

/-- Oracle for one structured-edits candidate (lines 1624-1748): apply_edits
    outcome, whether applied_files was non-empty, whether get_git_diff saw
    changes, and the compile outcome when the compile gate is active.  The
    sanity compile check and the gate compile check call the same compiler
    on the same tree and are modelled by the one compileOk field. -/
structure Cand where
  applyOk : Bool
  appliedNonEmpty : Bool
  diffChanges : Bool
  compileOk : Bool
  compileSig : Nat
deriving DecidableEq

/-- Shape of a JSON-format patch output (lines 1531-1548 and 1576-1617):
    an empty candidates payload (a bare empty list or a patches key with
    an empty list), a payload whose candidate conversion raises, or a
    non-empty candidate list.  hasDiffGit records whether the raw JSON
    text happens to contain the diff --git marker, which the apply section
    looks for when the structured path falls through. -/
inductive JShape where
  | emptyList (hasDiffGit : Bool) (path : ApplyPath)
  | badCands (sig : Nat)
  | cands (cs : List Cand) (after : ApplyPath)
deriving DecidableEq

/-- Direct (non-tool-call) patch output after clean_patch_text: empty,
    JSON, or unified-diff text.  For diff text, hasDiffGit records whether
    the text contains diff --git, and validatorErr the signature of a
    validate_unified_diff failure (none when validation passes or is
    skipped). -/
inductive PContent where
  | empty
  | json (j : JShape)
  | nonJson (hasDiffGit : Bool) (validatorErr : Option Nat) (path : ApplyPath)
deriving DecidableEq

/-- One LLM turn of the patch loop: tool calls, a failed call (patch_msg
    None after retries), or direct content. -/
inductive PTurn where
  | tools (k : Nat)
  | llmFail
  | content (c : PContent)
deriving DecidableEq

/-- Observable events of the patch loop that claim C6 is about. -/
inductive PEvent where
  | forceFlipped
  | appliedUnified (fromJson : Bool)
  | rejectedNonJson
deriving DecidableEq

/-- Loop control after one turn. -/
inductive StepCtl where
  | cont
  | brk
  | ret (ok : Bool)
deriving DecidableEq

/-- GREEN gate and full validation (lines 2174-2432): a GREEN failure
    injects a summary and continues the loop; a validation pass returns
    success; a validation failure injects a summary and continues (the
    code consults no repeat threshold on these two paths). -/
def gateOkTail (cfg : PCfg) (st : PSt) (path : ApplyPath) : PSt × StepCtl :=
  if cfg.greenGate && !path.greenPass then
    (setFailSummary st FailType.greenFailed (PSig.greenSig path.greenSig), StepCtl.cont)
  else if path.validationPassed then (st, StepCtl.ret true)
  else (setFailSummary st FailType.validationFailed (PSig.valSig path.valSig), StepCtl.cont)

/-- Standalone compile gate (lines 2051-2149) followed by the GREEN and
    validation tail. -/
def afterApplyTail (cfg : PCfg) (st : PSt) (path : ApplyPath) : PSt × StepCtl :=
  if cfg.compileGate then
    if path.compileOk then gateOkTail cfg st path
    else
      let st2 : PSt := { st with compileFails := st.compileFails + 1 }
      if cfg.maxCompileFails ≤ st2.compileFails then (st2, StepCtl.brk)
      else if st2.toolCount < cfg.maxToolCalls then
        let st3 := setFailSummary st2 FailType.compileError (PSig.compileSig path.compileSig)
        if shouldStopRepeat st3 then (st3, StepCtl.brk) else (st3, StepCtl.cont)
      else (st2, StepCtl.brk)
  else gateOkTail cfg st path

/-- Apply section (lines 1885-2049): when the patch was already applied
    through apply_edits the apply step is skipped; otherwise the patch
    text must contain diff --git (else the loop breaks), and
    apply_patch_fn is invoked - the appliedUnified event.  On failure the
    git-apply failure counter, the strict format/apply classification and
    the feedback summary follow the source. -/
def applySection (cfg : PCfg) (st : PSt) (already fromJson hasDG : Bool)
    (path : ApplyPath) : PSt × List PEvent × StepCtl :=
  if already then
    let r := afterApplyTail cfg { st with gitApplyFails := 0 } path
    (r.fst, [], r.snd)
  else if !hasDG then (st, [], StepCtl.brk)
  else if path.applyOk then
    let r := afterApplyTail cfg { st with gitApplyFails := 0 } path
    (r.fst, [PEvent.appliedUnified fromJson], r.snd)
  else
    let st2 : PSt := { st with gitApplyFails := st.gitApplyFails + 1 }
    if cfg.maxGitApplyFails ≤ st2.gitApplyFails then
      (st2, [PEvent.appliedUnified fromJson], StepCtl.brk)
    else
      let ftype := if path.applyCheckFailed && path.formatStderr then
        FailType.formatError else FailType.applyError
      let st3 := setFailSummary st2 ftype (PSig.applySig path.applySig)
      if st3.toolCount < cfg.maxToolCalls then
        if shouldStopRepeat st3 then (st3, [PEvent.appliedUnified fromJson], StepCtl.brk)
        else (st3, [PEvent.appliedUnified fromJson], StepCtl.cont)
      else (st3, [PEvent.appliedUnified fromJson], StepCtl.brk)

/-- Candidate loop of the structured-edits path (lines 1619-1748): try
    candidates in order; a candidate is accepted when apply_edits reports
    ok with non-empty applied_files, get_git_diff sees changes and (when
    gated) it compiles; compile failures are collected (the summary shows
    the first two). -/
def scanCands (gate : Bool) : List Cand → List Nat →
    Sum Unit (Option (List Nat))
  | [], acc => Sum.inr (if acc.isEmpty then none else some (acc.take 2))
  | cd :: rest, acc =>
    if cd.applyOk && cd.appliedNonEmpty && cd.diffChanges then
      if gate then
        if cd.compileOk then Sum.inl ()
        else scanCands gate rest (acc ++ [cd.compileSig])
      else Sum.inl ()
    else scanCands gate rest acc

/-- JSON-format handling (lines 1576-1839). -/
def jsonStep (cfg : PCfg) (st : PSt) (j : JShape) : PSt × List PEvent × StepCtl :=
  if !cfg.applyEditsAvailable then
    let st2 := setFailSummary st FailType.formatError PSig.toolUnavailable
    if st2.toolCount < cfg.maxToolCalls then
      if shouldStopRepeat st2 then (st2, [], StepCtl.brk) else (st2, [], StepCtl.cont)
    else (st2, [], StepCtl.brk)
  else
    match j with
    | JShape.emptyList hasDG path =>
        applySection cfg st false true hasDG path
    | JShape.badCands sig =>
        let st2 := setFailSummary st FailType.formatError (PSig.candsParseFail sig)
        if st2.toolCount < cfg.maxToolCalls then
          if shouldStopRepeat st2 then (st2, [], StepCtl.brk) else (st2, [], StepCtl.cont)
        else (st2, [], StepCtl.brk)
    | JShape.cands cs after =>
        if cs.isEmpty then
          let st2 := setFailSummary st FailType.formatError (PSig.candsParseFail 0)
          if st2.toolCount < cfg.maxToolCalls then
            if shouldStopRepeat st2 then (st2, [], StepCtl.brk) else (st2, [], StepCtl.cont)
          else (st2, [], StepCtl.brk)
        else
          match scanCands cfg.compileGate cs [] with
          | Sum.inl _ => applySection cfg st true true true after
          | Sum.inr none =>
              let st2 := setFailSummary st FailType.candidateError
                (PSig.candsFailed cs.length)
              if st2.toolCount < cfg.maxToolCalls then
                if shouldStopRepeat st2 then (st2, [], StepCtl.brk)
                else (st2, [], StepCtl.cont)
              else (st2, [], StepCtl.brk)
          | Sum.inr (some sigs) =>
              let st2 : PSt := { st with compileFails := st.compileFails + 1 }
              if cfg.maxCompileFails ≤ st2.compileFails then (st2, [], StepCtl.brk)
              else if st2.toolCount < cfg.maxToolCalls then
                let st3 := setFailSummary st2 FailType.compileError (PSig.compileList sigs)
                if shouldStopRepeat st3 then (st3, [], StepCtl.brk)
                else (st3, [], StepCtl.cont)
              else
                let st3 : PSt := { st2 with gitApplyFails := st2.gitApplyFails + 1 }
                if cfg.maxGitApplyFails ≤ st3.gitApplyFails then (st3, [], StepCtl.brk)
                else
                  (setFailSummary st3 FailType.applyError PSig.patchTextNone, [],
                   StepCtl.brk)

/-- Direct-content handling (lines 1509-2432): the empty-patch check, the
    force_structured_edits rejection of non-JSON output, the JSON path,
    unified-diff validation with the flip of force_structured_edits after
    two repeated format failures, and the apply pipeline. -/
def contentStep (cfg : PCfg) (st : PSt) (c : PContent) : PSt × List PEvent × StepCtl :=
  match c with
  | PContent.empty =>
      let st2 := setFailSummary st FailType.formatError PSig.emptyPatch
      if shouldStopRepeat st2 then (st2, [], StepCtl.brk) else (st2, [], StepCtl.cont)
  | PContent.json j => jsonStep cfg st j
  | PContent.nonJson hasDG vErr path =>
      if st.force then
        let st2 := setFailSummary st FailType.formatError PSig.expectedStructured
        if shouldStopRepeat st2 then (st2, [PEvent.rejectedNonJson], StepCtl.brk)
        else (st2, [PEvent.rejectedNonJson], StepCtl.cont)
      else if cfg.useUnifiedDiff then
        match vErr with
        | some sig =>
            let flip := !st.force && decide (2 ≤ st.repeatedFail)
            let st2 : PSt := if flip then { st with force := true } else st
            let st3 := setFailSummary st2 FailType.formatError (PSig.validatorDetail sig)
            let evs := if flip then [PEvent.forceFlipped] else []
            if shouldStopRepeat st3 then (st3, evs, StepCtl.brk)
            else (st3, evs, StepCtl.cont)
        | none => applySection cfg st false false hasDG path
      else applySection cfg st false false hasDG path

/-- One pass of the patch while-loop (lines 1249-2432): the api-call and
    consecutive-direct-patch budget checks, the api counter bump, then the
    turn. -/
def patchStep (cfg : PCfg) (st : PSt) (t : PTurn) : PSt × List PEvent × StepCtl :=
  if cfg.maxPatchApi ≤ st.apiCount then (st, [], StepCtl.brk)
  else if cfg.maxConsecDirect ≤ st.consecDirect then (st, [], StepCtl.brk)
  else
    let st1 : PSt := { st with apiCount := st.apiCount + 1 }
    match t with
    | PTurn.tools k =>
        ({ st1 with toolCount := st1.toolCount + k, consecDirect := 0 }, [],
         StepCtl.cont)
    | PTurn.llmFail =>
        if st1.toolCount < cfg.maxToolCalls - 1 then (st1, [], StepCtl.cont)
        else (st1, [], StepCtl.brk)
    | PTurn.content c =>
        contentStep cfg { st1 with consecDirect := st1.consecDirect + 1 } c

/-- The patch phase of one iteration: fold the step over the turn
    sequence; break ends the phase, a return ends the run. -/
def runPhase (cfg : PCfg) : PSt → List PTurn → PSt × List PEvent × Option Bool
  | st, [] => (st, [], none)
  | st, t :: rest =>
    match patchStep cfg st t with
    | (st2, evs, StepCtl.cont) =>
        let r := runPhase cfg st2 rest
        (r.fst, evs ++ r.snd.fst, r.snd.snd)
    | (st2, evs, StepCtl.brk) => (st2, evs, none)
    | (st2, evs, StepCtl.ret ok) => (st2, evs, some ok)

/-- Successive iterations of the outer for-loop: each iteration's patch
    phase starts from fresh local state (line 1247 re-initializes
    force_structured_edits, and lines 1188-1245 the rest); the event
    traces are concatenated. -/
def runIters (cfg : PCfg) : List (List PTurn) → List PEvent
  | [] => []
  | turns :: rest =>
    match runPhase cfg initPSt turns with
    | (_, evs, some _) => evs
    | (_, evs, none) => evs ++ runIters cfg rest

/-- Observer for claim C6: does a unified-diff application occur anywhere
    after force_structured_edits was first set? -/
def appliedUnifiedAfterForce : List PEvent → Bool → Bool
  | [], _ => false
  | PEvent.forceFlipped :: rest, _ => appliedUnifiedAfterForce rest true
  | PEvent.appliedUnified _ :: rest, seen =>
      seen || appliedUnifiedAfterForce rest seen
  | _ :: rest, seen => appliedUnifiedAfterForce rest seen

/- ================== Section 8: concrete test fixtures ==================== -/

/-- Counter increment carried by a retry-loop exit. -/
def retryCounterInc : RetryExit → Nat
  | RetryExit.success k => k
  | RetryExit.fatalQuota => 0
  | RetryExit.failed => 0

/-- First invocation of a tool call on the cleared cache. -/
def firstCallOutcome (fm : String → Option (Nat → Option ToolRes))
    (tc : ToolCallRequest) : Option CallOutcome :=
  handleOneCall fm [] tc

/-- Second invocation of the identical tool call, after the first. -/
def secondCallOutcome (fm : String → Option (Nat → Option ToolRes))
    (tc : ToolCallRequest) : Option CallOutcome :=
  match handleOneCall fm [] tc with
  | some o => handleOneCall fm o.cacheAfter tc
  | none => none

/-- Registry with one whitelisted tool whose result is not ok. -/
def fmReadFileFails : String → Option (Nat → Option ToolRes) := fun n =>
  if n = "read_file" then some (fun _ => some { ok := false, val := 7 }) else none

/-- A read_file call used to exercise the cache. -/
def tcReadFile : ToolCallRequest := { id := 1, name := "read_file", args := RawArgs.parsed 5 }

/-- A tool callable that always returns successfully, echoing its
    argument (all parameters optional, so the empty dict binds too). -/
def toolOk : Nat → Option ToolRes := fun a => some { ok := true, val := a }

/-- The read_file wrapper as registered (tools_localize.py lines 77-87):
    its path parameter is required, so invoking it with the empty
    argument dict (canonical encoding 0) raises TypeError - the none
    value; with bound arguments it returns a result dict. -/
def fmReadFileRequired : String → Option (Nat → Option ToolRes) := fun n =>
  if n = "read_file" then
    some (fun a => if a = 0 then none else some { ok := true, val := a })
  else none

/-- A read_file call whose argument string fails both JSON parses, so the
    runtime substitutes the empty dict (tool_runtime.py line 39). -/
def tcBrokenReadFile : ToolCallRequest :=
  { id := 1, name := "read_file", args := RawArgs.broken }

/-- Registry holding only a read_file that tolerates the empty dict. -/
def fmToolOkOnly : String → Option (Nat → Option ToolRes) := fun n =>
  if n = "read_file" then some toolOk else none

/-- Batch for the claim C9 amended witness: a parse-failed call to a
    tool whose invocation with the empty dict returns, then a call to an
    unknown tool. -/
def c9Batch : List ToolCallRequest :=
  [{ id := 1, name := "read_file", args := RawArgs.broken },
   { id := 2, name := "mystery", args := RawArgs.parsed 3 }]

/-- The reply list and cache that handle_tool_calls produces on c9Batch
    over fmToolOkOnly. -/
def c9Out : List ToolReply × ToolCache :=
  ([{ role := Role.tool, tool_call_id := 1, name := "read_file",
      content := ToolMsgContent.result { base := { ok := true, val := 0 }, cached := false } },
    { role := Role.tool, tool_call_id := 2, name := "mystery",
      content := ToolMsgContent.unavailable }],
   [(("read_file", 0), { ok := true, val := 0 })])

/-- Conversation of 31 messages (one system message and thirty user
    messages) used to compare the patch-phase truncation with the claimed
    selection. -/
def convEx31 : List Msg :=
  { role := Role.system, toolCalls := 0, tag := 0 }
    :: (List.range 30).map fun i => { role := Role.user, toolCalls := 0, tag := i + 1 }

/-- Fixed preamble of the claim C3 boundary diff: the diff --git line, the
    two file headers and the -1,5 +1,5 hunk header. -/
def c3Preamble : List DLine :=
  [("diff --git a/f b/f").toList, ("--- a/f").toList, ("+++ b/f").toList,
   ("@@ -1,5 +1,5 @@").toList]

/-- The hunk header of the claim C3 boundary diff. -/
def c3Header : DLine := ("@@ -1,5 +1,5 @@").toList

/-- The configuration used in the claim C6 run: unified diffs expected,
    no compile or GREEN gate, default budgets (config.py lines 20-41). -/
def c6Cfg : PCfg :=
  { useUnifiedDiff := true, compileGate := false, greenGate := false,
    applyEditsAvailable := true, maxPatchApi := 50, maxConsecDirect := 5,
    maxToolCalls := 4, maxCompileFails := 5, maxGitApplyFails := 5 }

/-- Pipeline oracle for a patch that applies, compiles, passes GREEN and
    passes validation. -/
def goodPath : ApplyPath :=
  { applyOk := true, applyCheckFailed := false, formatStderr := false, applySig := 0,
    compileOk := true, compileSig := 0, greenPass := true, greenSig := 0,
    validationPassed := true, valSig := 0 }

/-- An invalid unified diff turn (fails validate_unified_diff with
    signature 7). -/
def badDiffTurn : PTurn :=
  PTurn.content (PContent.nonJson true (some 7) goodPath)

/-- A valid unified diff turn that applies and validates. -/
def goodDiffTurn : PTurn :=
  PTurn.content (PContent.nonJson true none goodPath)

/-- The claim C6 run: iteration 1 sees three identical invalid diffs (the
    third flips force_structured_edits) followed by four more non-JSON
    outputs (the fourth repeated rejection stops the phase); iteration 2
    opens with a valid unified diff. -/
def c6Script : List (List PTurn) :=
  [[badDiffTurn, badDiffTurn, badDiffTurn,
    badDiffTurn, badDiffTurn, badDiffTurn, badDiffTurn],
   [goodDiffTurn]]

/-- Well-formed conversation of 31 messages used as the claim C1 witness:
    a system message, a user message, nine assistant/tool-call blocks of
    two tool responses each, a user message, then a plain assistant
    answer. -/
def c1ConvEx : List Msg :=
  { role := Role.system, toolCalls := 0, tag := 0 }
    :: { role := Role.user, toolCalls := 0, tag := 1 }
    :: ((List.range 9).flatMap fun i =>
        [{ role := Role.assistant, toolCalls := 2, tag := 10 * i },
         { role := Role.tool, toolCalls := 0, tag := 10 * i + 1 },
         { role := Role.tool, toolCalls := 0, tag := 10 * i + 2 }])
    ++ [{ role := Role.user, toolCalls := 0, tag := 90 },
        { role := Role.assistant, toolCalls := 0, tag := 91 }]

/- ========================== Theorems ==================================== -/

/- Shared helper lemmas. -/

theorem handleOneCall_reply_fields (fm : String → Option (Nat → Option ToolRes))
    (c : ToolCache) (tc : ToolCallRequest) (o : CallOutcome)
    (h : handleOneCall fm c tc = some o) :
    o.reply.role = Role.tool ∧ o.reply.tool_call_id = tc.id ∧
    o.reply.name = tc.name := by
  unfold handleOneCall at h
  dsimp only at h
  cases h1 : fm tc.name with
  | none =>
    rw [h1] at h
    simp only [Option.some.injEq] at h
    rw [← h]
    exact ⟨rfl, rfl, rfl⟩
  | some f =>
    rw [h1] at h
    dsimp only at h
    cases h2 : get_cached_result c tc.name (parseToolArgs tc.args) with
    | some r =>
      rw [h2] at h
      simp only [Option.some.injEq] at h
      rw [← h]
      exact ⟨rfl, rfl, rfl⟩
    | none =>
      rw [h2] at h
      dsimp only at h
      cases h3 : f (parseToolArgs tc.args) with
      | none =>
        rw [h3] at h
        exact absurd h (by simp)
      | some r =>
        rw [h3] at h
        simp only [Option.some.injEq] at h
        rw [← h]
        exact ⟨rfl, rfl, rfl⟩

/-- Claim C9 counterexample: the registered read_file wrapper requires a
    path argument (tools_localize.py line 77), so a call whose arguments
    fail both JSON parses is executed as func(** the empty dict) and
    raises TypeError with no try/except around it (tool_runtime.py line
    64): handle_tool_calls propagates the exception and returns no list
    at all - exactly the raised entry the claim rules out - while the
    same call with parseable arguments yields its one aligned message. -/
theorem c9_counterexample :
    parseToolArgs tcBrokenReadFile.args = 0 ∧
    handle_tool_calls fmReadFileRequired [] [tcBrokenReadFile] = none ∧
    (handle_tool_calls fmReadFileRequired [] [tcReadFile]).map
        (fun o => o.fst.map fun r => (r.role, r.tool_call_id, r.name))
      = some [(Role.tool, 1, "read_file")] :=
  ⟨rfl, rfl, rfl⟩

/-- Claim C9 amended: whenever handle_tool_calls returns a list at all
    (no executed call raised), that list has exactly one message per
    input call, in order, each with role tool, the call's id as
    tool_call_id and the call's name - including calls to unknown tools,
    which get an error-content message, and parse-failed calls whose
    callable accepts the substituted empty dict; but a parse-failed call
    is executed with the empty dict rather than answered with an
    error-content message, and when the callable's required parameters
    are left unbound the invocation raises TypeError out of
    handle_tool_calls (tool_runtime.py line 64 has no try/except), so no
    list is returned. -/
theorem c9_replies_aligned_unless_raised (fm : String → Option (Nat → Option ToolRes))
    (c : ToolCache) (calls : List ToolCallRequest)
    (out : List ToolReply × ToolCache)
    (h : handle_tool_calls fm c calls = some out) :
    out.fst.length = calls.length ∧
    ∀ i : Nat,
      (out.fst[i]?).map (fun r => (r.role, r.tool_call_id, r.name))
        = (calls[i]?).map fun tc => (Role.tool, tc.id, tc.name) := by
  induction calls generalizing c out with
  | nil =>
    rw [handle_tool_calls] at h
    simp only [Option.some.injEq] at h
    rw [← h]
    exact ⟨rfl, fun i => by simp⟩
  | cons tc rest ih =>
    rw [handle_tool_calls] at h
    cases h1 : handleOneCall fm c tc with
    | none =>
      rw [h1] at h
      exact absurd h (by simp)
    | some o =>
      rw [h1] at h
      dsimp only at h
      cases h2 : handle_tool_calls fm o.cacheAfter rest with
      | none =>
        rw [h2] at h
        exact absurd h (by simp)
      | some next =>
        rw [h2] at h
        simp only [Option.some.injEq] at h
        obtain ⟨hlen, hal⟩ := ih o.cacheAfter next h2
        obtain ⟨f1, f2, f3⟩ := handleOneCall_reply_fields fm c tc o h1
        refine ⟨by rw [← h]; simp [hlen], ?_⟩
        intro i
        cases i with
        | zero =>
          rw [← h]
          simp [f1, f2, f3]
        | succ j =>
          rw [← h]
          simpa using hal j

/-- Claim C9 amended witness: on the two-call batch with a parse-failed
    read_file (tolerant of the empty dict) and an unknown tool, the list
    returned has one aligned message per call. -/
theorem c9_replies_aligned_unless_raised_witness :
    handle_tool_calls fmToolOkOnly [] c9Batch = some c9Out ∧
    c9Out.fst.length = c9Batch.length ∧
    (c9Out.fst[0]?).map (fun r => (r.role, r.tool_call_id, r.name))
      = (c9Batch[0]?).map (fun tc => (Role.tool, tc.id, tc.name)) ∧
    (c9Out.fst[1]?).map (fun r => (r.role, r.tool_call_id, r.name))
      = (c9Batch[1]?).map (fun tc => (Role.tool, tc.id, tc.name)) :=
  ⟨rfl,
   (c9_replies_aligned_unless_raised fmToolOkOnly [] c9Batch c9Out rfl).1,
   (c9_replies_aligned_unless_raised fmToolOkOnly [] c9Batch c9Out rfl).2 0,
   (c9_replies_aligned_unless_raised fmToolOkOnly [] c9Batch c9Out rfl).2 1⟩

/-- Claim C10: with the TDD gate enabled but check_compile absent from the
    tool runtime's func_map, the whole RED verification block is silently
    skipped - verify_red is never called, no error is returned, and
    tdd_gate_red_verified stays false, for every verify_red availability,
    compile outcome and red result. -/
theorem c10_gate_skipped_without_check_compile (hasVerifyRed compileOk : Bool)
    (red : RedRes) :
    tddGateStage true true false hasVerifyRed compileOk red
      = { fatal := none, redVerified := false, redCalled := false } := by
  simp [tddGateStage]

/-- Claim C7: under the RED gate (entered with check_compile and
    verify_red available and a successful compile), an unran test or an
    rc of None, -1 or 255 is fatal, rc = 0 is fatal, rc of 2 or 4 is
    fatal, and exactly the remaining results let the run proceed with
    tdd_gate_red_verified set. -/
theorem c7_red_gate_decision (red : RedRes) :
    ((red.ran = false ∨ red.rc = none ∨ red.rc = some (-1) ∨ red.rc = some 255) →
      tddGateStage true true true true true red
        = { fatal := some GateErr.infra, redVerified := false, redCalled := true }) ∧
    (red.ran = true → red.rc = some 0 →
      tddGateStage true true true true true red
        = { fatal := some GateErr.alreadyPasses, redVerified := false, redCalled := true }) ∧
    (red.ran = true → (red.rc = some 2 ∨ red.rc = some 4) →
      tddGateStage true true true true true red
        = { fatal := some GateErr.collectErr, redVerified := false, redCalled := true }) ∧
    (∀ n : Int, red.ran = true → red.rc = some n →
      n ≠ 0 → n ≠ -1 → n ≠ 255 → n ≠ 2 → n ≠ 4 →
      tddGateStage true true true true true red
        = { fatal := none, redVerified := true, redCalled := true }) ∧
    ((tddGateStage true true true true true red).redVerified = true ↔
      (tddGateStage true true true true true red).fatal = none) := by
  obtain ⟨ran, rc⟩ := red
  refine ⟨?_, ?_, ?_, ?_, ?_⟩
  · rintro (h | h | h | h) <;> simp at h <;> simp [tddGateStage, h]
  · intro hran h0
    simp at hran h0
    simp [tddGateStage, hran, h0]
  · intro hran h
    simp at hran
    rcases h with h | h <;> simp at h <;> simp [tddGateStage, hran, h]
  · intro n hran hrc h0 hm1 h255 h2 h4
    simp at hran hrc
    subst hrc
    simp [tddGateStage, hran, h0, hm1, h255, h2, h4]
  · cases ran with
    | false => simp [tddGateStage]
    | true =>
      cases rc with
      | none => simp [tddGateStage]
      | some n =>
        by_cases hm1 : n = -1
        · simp [tddGateStage, hm1]
        by_cases h255 : n = 255
        · simp [tddGateStage, hm1, h255]
        by_cases h0 : n = 0
        · simp [tddGateStage, hm1, h255, h0]
        by_cases h2 : n = 2
        · simp [tddGateStage, hm1, h255, h0, h2]
        by_cases h4 : n = 4
        · simp [tddGateStage, hm1, h255, h0, h2, h4]
        · simp [tddGateStage, hm1, h255, h0, h2, h4]

/-- Claim C7 witness: a RED result that ran with rc 1 proceeds with the
    verified flag set. -/
theorem c7_red_gate_decision_witness :
    tddGateStage true true true true true { ran := true, rc := some 1 }
      = { fatal := none, redVerified := true, redCalled := true } :=
  (c7_red_gate_decision { ran := true, rc := some 1 }).2.2.2.1 1 rfl rfl
    (by decide) (by decide) (by decide) (by decide) (by decide)

/-- Claim C2 (code bug evidence): the workdir-lost returns of the apply
    and compile paths carry no metrics at all, while every other exit
    constructor embeds metrics with runtime_seconds recorded. -/
theorem c2_workdir_lost_results_lack_metrics (it e : Nat) :
    (workdirLostApplyResult it).metrics = none ∧
    (workdirLostCompileResult it).metrics = none ∧
    (make_error_result ExitErr.harnessFailed e).metrics = some { runtime_seconds := e } ∧
    (timeoutResult it e).metrics = some { runtime_seconds := e } ∧
    (successResult it e).metrics = some { runtime_seconds := e } ∧
    (maxItersResult it e).metrics = some { runtime_seconds := e } :=
  ⟨rfl, rfl, rfl, rfl, rfl, rfl⟩

/-- Claim C5 counterexample: an LLM call that fails once with a rate limit
    and succeeds on the retry ultimately succeeds, yet the api-call
    counters receive 0, not the 1 the claim requires. -/
theorem c5_counterexample :
    llmRetryLoc (fun n => if n == 0 then ApiAttempt.rateLimit else ApiAttempt.ok)
      = RetryExit.success 0 ∧
    RetryExit.success 0 ≠ RetryExit.success 1 :=
  ⟨rfl, by decide⟩

theorem llmRetryGo_pos_rc_not_counted (att : Nat → ApiAttempt) :
    ∀ fuel rc, 1 ≤ rc → retryCounterInc (llmRetryGo att fuel rc) = 0 := by
  intro fuel
  induction fuel with
  | zero => intro rc h; rfl
  | succ f ih =>
    intro rc h
    have hrc : (rc == 0) = false := by simp; omega
    unfold llmRetryGo
    cases hatt : att rc with
    | ok => simp [retryCounterInc, hrc]
    | quotaFatal => simp [retryCounterInc]
    | rateLimit =>
      by_cases hf : 0 < f
      · simpa [hf] using ih (rc + 1) (by omega)
      · simp [hf, retryCounterInc]
    | temporary =>
      by_cases hf : 0 < f
      · simpa [hf] using ih (rc + 1) (by omega)
      · simp [hf, retryCounterInc]
    | other => simp [retryCounterInc]

/-- Claim C5 amended: each retry loop adds at most 1 to the api-call
    counters, and adds exactly 1 precisely when the first attempt
    succeeds; a call that only succeeds after a retry is not counted. -/
theorem c5_counters_first_attempt_only (att : Nat → ApiAttempt) :
    retryCounterInc (llmRetryLoc att) ≤ 1 ∧
    (retryCounterInc (llmRetryLoc att) = 1 ↔ att 0 = ApiAttempt.ok) ∧
    retryCounterInc (llmRetryPatch att) ≤ 1 ∧
    (retryCounterInc (llmRetryPatch att) = 1 ↔ att 0 = ApiAttempt.ok) := by
  have key : retryCounterInc (llmRetryGo att 5 0) ≤ 1 ∧
      (retryCounterInc (llmRetryGo att 5 0) = 1 ↔ att 0 = ApiAttempt.ok) := by
    unfold llmRetryGo
    cases hatt : att 0 with
    | ok => simp [retryCounterInc, hatt]
    | quotaFatal => simp [retryCounterInc, hatt]
    | rateLimit =>
      have h0 := llmRetryGo_pos_rc_not_counted att 4 1 (by omega)
      simp [hatt, h0]
    | temporary =>
      have h0 := llmRetryGo_pos_rc_not_counted att 4 1 (by omega)
      simp [hatt, h0]
    | other => simp [retryCounterInc, hatt]
  exact ⟨key.1, key.2, key.1, key.2⟩

/-- Claim C8 counterexample: read_file is whitelisted, yet when its first
    result is not ok the cache stores nothing, so the second identical
    invocation is executed afresh and returns a result without the
    _cached marker - not the first result with _cached added, as the
    claim requires for whitelisted tools. -/
theorem c8_counterexample :
    "read_file" ∈ cacheableFunctions ∧
    (firstCallOutcome fmReadFileFails tcReadFile).map (fun o => o.reply.content)
      = some (ToolMsgContent.result { base := { ok := false, val := 7 }, cached := false }) ∧
    (secondCallOutcome fmReadFileFails tcReadFile).map (fun o => o.reply.content)
      = some (ToolMsgContent.result { base := { ok := false, val := 7 }, cached := false }) ∧
    (secondCallOutcome fmReadFileFails tcReadFile).map (fun o => o.executed)
      = some true ∧
    (secondCallOutcome fmReadFileFails tcReadFile).map (fun o => o.reply.content)
      ≠ some (ToolMsgContent.result
          (claimCachedCopy { base := { ok := false, val := 7 }, cached := false })) := by
  refine ⟨by decide, rfl, rfl, rfl, by decide⟩

/-- Claim C8 amended: for a registered tool, the second identical
    invocation returns the first result with _cached set to true, without
    executing the tool again, exactly when the tool is whitelisted and its
    first result was ok; in every other case (non-whitelisted tool, or a
    first result that is not ok) the call is executed afresh and repeats
    the first reply without the marker. -/
theorem c8_cache_round_trip (fm : String → Option (Nat → Option ToolRes))
    (f : Nat → Option ToolRes) (r : ToolRes) (tc : ToolCallRequest)
    (hf : fm tc.name = some f) (hr : f (parseToolArgs tc.args) = some r) :
    (tc.name ∈ cacheableFunctions → r.ok = true →
      (secondCallOutcome fm tc).map (fun o => o.reply.content)
          = some (ToolMsgContent.result
              (claimCachedCopy { base := r, cached := false })) ∧
      (secondCallOutcome fm tc).map (fun o => o.executed) = some false ∧
      (firstCallOutcome fm tc).map (fun o => o.reply.content)
          = some (ToolMsgContent.result { base := r, cached := false })) ∧
    (¬(tc.name ∈ cacheableFunctions ∧ r.ok = true) →
      (secondCallOutcome fm tc).map (fun o => o.reply)
          = (firstCallOutcome fm tc).map (fun o => o.reply) ∧
      (secondCallOutcome fm tc).map (fun o => o.executed) = some true) := by
  constructor
  · intro hw hok
    simp [secondCallOutcome, firstCallOutcome, handleOneCall, hf, hr,
      get_cached_result, lookupCache, cache_tool_result, hw, hok, claimCachedCopy]
  · intro hnot
    simp [secondCallOutcome, firstCallOutcome, handleOneCall, hf, hr,
      get_cached_result, lookupCache, cache_tool_result, hnot]

/-- Claim C8 amended witness: a successful whitelisted read_file call is
    served from the cache on the second invocation, with the marker
    added. -/
theorem c8_cache_round_trip_witness :
    (secondCallOutcome (fun _ => some toolOk) tcReadFile).map (fun o => o.reply.content)
        = some (ToolMsgContent.result
            (claimCachedCopy { base := { ok := true, val := 5 }, cached := false })) ∧
    (secondCallOutcome (fun _ => some toolOk) tcReadFile).map (fun o => o.executed)
        = some false ∧
    (firstCallOutcome (fun _ => some toolOk) tcReadFile).map (fun o => o.reply.content)
        = some (ToolMsgContent.result { base := { ok := true, val := 5 }, cached := false }) :=
  (c8_cache_round_trip (fun _ => some toolOk) toolOk { ok := true, val := 5 }
    tcReadFile rfl rfl).1 (by decide) rfl

theorem findSafeCutAux_skip (l : List Msg) (cut : Nat) :
    ∀ idxs : List Nat, (∀ i ∈ idxs, ∀ y, l[i]? = some y → hasCalls y = false) →
    findSafeCutAux l cut idxs = cut := by
  intro idxs
  induction idxs with
  | nil => intro _; rfl
  | cons i rest ih =>
    intro h
    unfold findSafeCutAux
    cases hy : l[i]? with
    | none => exact ih fun j hj => h j (List.mem_cons_of_mem i hj)
    | some y =>
      have := h i (List.mem_cons_self i rest) y hy
      simp [this]
      exact ih fun j hj => h j (List.mem_cons_of_mem i hj)

theorem removeIncomplete_id (l : List Msg) (h : ∀ m ∈ l, hasCalls m = false) :
    removeIncomplete l = l := by
  induction l with
  | nil => simp [removeIncomplete]
  | cons m rest ih =>
    have hm := h m (List.mem_cons_self m rest)
    rw [removeIncomplete]
    simp [hm]
    exact ih fun x hx => h x (List.mem_cons_of_mem m hx)

theorem patchTruncate_no_calls (msgs : List Msg) (h30 : 30 < msgs.length)
    (h : ∀ m ∈ msgs, hasCalls m = false) :
    patchTruncate msgs = msgs.take 2 ++ msgs.drop (msgs.length - 20) := by
  have h22 : 2 + 20 < msgs.length := by omega
  have hcut : findSafeCut msgs 2 (msgs.length - 20) = msgs.length - 20 := by
    apply findSafeCutAux_skip
    intro i _ y hy
    exact h y (List.getElem?_mem hy)
  have hmem : ∀ m ∈ msgs.take 2 ++ msgs.drop (msgs.length - 20), hasCalls m = false := by
    intro m hm
    rcases List.mem_append.mp hm with hm | hm
    · exact h m (List.take_subset _ _ hm)
    · exact h m (List.drop_subset _ _ hm)
  simp only [patchTruncate, if_pos h30, pruneCore, if_pos h22, hcut]
  exact removeIncomplete_id _ hmem

theorem locTruncate_no_calls (msgs : List Msg) (h30 : 30 < msgs.length)
    (h : ∀ m ∈ msgs, hasCalls m = false)
    (h18 : 18 < (msgs.filter fun m => !isSystemMsg m).length) :
    locTruncate msgs = msgs.filter isSystemMsg
      ++ ((msgs.filter fun m => !isSystemMsg m).take 3
          ++ (msgs.filter fun m => !isSystemMsg m).drop
              ((msgs.filter fun m => !isSystemMsg m).length - 15)) := by
  set other := msgs.filter fun m => !isSystemMsg m with hother
  have hsub : ∀ m ∈ other, hasCalls m = false := by
    intro m hm
    exact h m (List.mem_of_mem_filter hm)
  have h18x : 3 + 15 < other.length := by omega
  have hcut : findSafeCut other 3 (other.length - 15) = other.length - 15 := by
    apply findSafeCutAux_skip
    intro i _ y hy
    exact hsub y (List.getElem?_mem hy)
  have hmem : ∀ m ∈ other.take 3 ++ other.drop (other.length - 15), hasCalls m = false := by
    intro m hm
    rcases List.mem_append.mp hm with hm | hm
    · exact hsub m (List.take_subset _ _ hm)
    · exact hsub m (List.drop_subset _ _ hm)
  simp only [locTruncate, if_pos h30, pruneCore, ← hother, if_pos h18x, hcut]
  rw [removeIncomplete_id _ hmem]

/-- Claim C4 counterexample: a 31-message patch-phase conversation (one
    system message, thirty user messages) on which the patch-phase
    truncation keeps the first 2 and last 20 of all messages, which
    differs from the claimed selection of all system messages plus the
    first 3 and last 15 non-system messages. -/
theorem c4_counterexample :
    patchTruncate convEx31 ≠ claimedCapSelection convEx31 := by
  rw [patchTruncate_no_calls convEx31 (by decide) (by decide)]
  decide

/-- Claim C4 amended: when the conversation list exceeds 30 messages, the
    localization-phase truncation preserves all system messages plus the
    first 3 and the last 15 non-system messages, but the patch-phase
    truncation preserves the first 2 and the last 20 of all messages,
    giving system messages no special treatment.  The hypothesis that no
    message carries tool calls makes the tool-sequence safety adjustment
    of the cut point the identity, exposing the selection the claim is
    about. -/
theorem c4_per_phase_cap_selection (msgs : List Msg) (h30 : 30 < msgs.length)
    (hnc : ∀ m ∈ msgs, hasCalls m = false)
    (h18 : 18 < (msgs.filter fun m => !isSystemMsg m).length) :
    locTruncate msgs = msgs.filter isSystemMsg
      ++ ((msgs.filter fun m => !isSystemMsg m).take 3
          ++ (msgs.filter fun m => !isSystemMsg m).drop
              ((msgs.filter fun m => !isSystemMsg m).length - 15)) ∧
    patchTruncate msgs = msgs.take 2 ++ msgs.drop (msgs.length - 20) :=
  ⟨locTruncate_no_calls msgs h30 hnc h18, patchTruncate_no_calls msgs h30 hnc⟩

/-- Claim C4 amended witness: the two phase selections on the concrete
    31-message conversation. -/
theorem c4_per_phase_cap_selection_witness :
    locTruncate convEx31 = convEx31.filter isSystemMsg
      ++ ((convEx31.filter fun m => !isSystemMsg m).take 3
          ++ (convEx31.filter fun m => !isSystemMsg m).drop
              ((convEx31.filter fun m => !isSystemMsg m).length - 15)) ∧
    patchTruncate convEx31 = convEx31.take 2 ++ convEx31.drop (convEx31.length - 20) :=
  c4_per_phase_cap_selection convEx31 (by decide) (by decide) (by decide)

theorem lineStarts_cons_elim (c : Char) (p ln : List Char)
    (h : lineStarts (c :: p) ln = true) : ∃ tl, ln = c :: tl := by
  cases ln with
  | nil => simp [lineStarts] at h
  | cons d tl =>
    refine ⟨tl, ?_⟩
    have hb : (c == d) = true := by
      have h2 := h
      unfold lineStarts at h2
      exact ((Bool.and_eq_true _ _).mp h2).1
    rw [eq_of_beq hb]

theorem lineStarts_append_left (p q ln : List Char)
    (h : lineStarts (p ++ q) ln = true) : lineStarts p ln = true := by
  induction p generalizing ln with
  | nil => rfl
  | cons c ps ih =>
    cases ln with
    | nil => simp [lineStarts] at h
    | cons d tl =>
      unfold lineStarts at h ⊢
      rcases (Bool.and_eq_true _ _).mp h with ⟨h1, h2⟩
      rw [h1, ih tl h2]
      rfl

theorem header_none_of_not_boundary (ln : DLine) (h : isHunkBoundary ln = false) :
    hunkHeader ln = none := by
  have hb : startsW "@@ -" ln = false := by
    by_contra hc
    have hc2 : lineStarts (("@@ ").toList ++ ['-']) ln = true := by
      have : startsW "@@ -" ln = true := by
        cases hx : startsW "@@ -" ln
        · exact absurd hx hc
        · rfl
      exact this
    have : startsW "@@ " ln = true := lineStarts_append_left _ _ _ hc2
    simp [isHunkBoundary, this] at h
  simp [hunkHeader, hb]

theorem takeWhile_getElem_sat {α : Type} (p : α → Bool) :
    ∀ (l : List α) (j : Nat) (x : α), j < (l.takeWhile p).length →
      l[j]? = some x → p x = true := by
  intro l
  induction l with
  | nil => simp
  | cons a t ih =>
    intro j x hj hx
    by_cases hp : p a
    · cases j with
      | zero =>
        simp at hx
        rw [← hx]
        exact hp
      | succ j2 =>
        simp only [List.takeWhile_cons, if_pos hp, List.length_cons] at hj
        simp only [List.getElem?_cons_succ] at hx
        exact ih j2 x (by omega) hx
    · simp [List.takeWhile_cons, hp] at hj

theorem specHunkBody_cons_skip (ln : DLine) (B : List DLine)
    (hb : isHunkBoundary ln = false) :
    specHunkBody (ln :: B) = ln :: specHunkBody B := by
  simp [specHunkBody, List.takeWhile_cons, hb]

theorem specOldCount_cons (ln : DLine) (B : List DLine) :
    specOldCount (ln :: B)
      = (if (startsW " " ln || (startsW "-" ln && !startsW "--- " ln)) = true
         then 1 else 0) + specOldCount B := by
  simp only [specOldCount, List.filter_cons]
  split
  · simp; omega
  · simp

theorem specNewCount_cons (ln : DLine) (B : List DLine) :
    specNewCount (ln :: B)
      = (if (startsW " " ln || (startsW "+" ln && !startsW "+++ " ln)) = true
         then 1 else 0) + specNewCount B := by
  simp only [specNewCount, List.filter_cons]
  split
  · simp; omega
  · simp

theorem scanBody_of_counts :
    ∀ (ls : List DLine) (o n k o2 n2 k2 : Nat),
      scanBody ls o n k = BodyScan.counts o2 n2 k2 →
      o2 = o + specOldCount (specHunkBody ls) ∧
      n2 = n + specNewCount (specHunkBody ls) ∧
      k2 = k + (specHunkBody ls).length := by
  intro ls
  induction ls with
  | nil =>
    intro o n k o2 n2 k2 h
    unfold scanBody at h
    injection h with h1 h2 h3
    simp [specHunkBody, specOldCount, specNewCount]
    omega
  | cons ln rest ih =>
    intro o n k o2 n2 k2 h
    unfold scanBody at h
    by_cases hb : isHunkBoundary ln = true
    · rw [if_pos hb] at h
      injection h with h1 h2 h3
      have hbody : specHunkBody (ln :: rest) = [] := by
        simp [specHunkBody, List.takeWhile_cons, hb]
      simp [hbody, specOldCount, specNewCount]
      omega
    · have hb2 : isHunkBoundary ln = false := by
        revert hb; cases isHunkBoundary ln <;> simp
      rw [if_neg (by simp [hb2])] at h
      have hbody := specHunkBody_cons_skip ln (specHunkBody rest) hb2
      by_cases hbs : startsW "\\ No newline at end of file" ln = true
      · rw [if_pos hbs] at h
        obtain ⟨tl, rfl⟩ := lineStarts_cons_elim '\\' _ _ hbs
        have hrec := ih o n (k + 1) o2 n2 k2 h
        rw [specHunkBody_cons_skip _ _ hb2, specOldCount_cons, specNewCount_cons]
        rw [if_neg (by simp [(show startsW " " ('\\' :: tl) = false from rfl),
              (show startsW "-" ('\\' :: tl) = false from rfl)]),
            if_neg (by simp [(show startsW " " ('\\' :: tl) = false from rfl),
              (show startsW "+" ('\\' :: tl) = false from rfl)])]
        simp only [List.length_cons]
        omega
      · rw [if_neg (by simp [hbs])] at h
        by_cases hsp : startsW " " ln = true
        · rw [if_pos hsp] at h
          have hrec := ih (o + 1) (n + 1) (k + 1) o2 n2 k2 h
          rw [specHunkBody_cons_skip _ _ hb2, specOldCount_cons, specNewCount_cons]
          rw [if_pos (by simp [hsp]), if_pos (by simp [hsp])]
          simp only [List.length_cons]
          omega
        · rw [if_neg (by simp [hsp])] at h
          have hsp2 : startsW " " ln = false := by
            revert hsp; cases startsW " " ln <;> simp
          by_cases hmn : startsW "-" ln = true
          · rw [if_pos hmn] at h
            have hnd : startsW "--- " ln = false := by
              revert hb2; unfold isHunkBoundary
              cases startsW "--- " ln <;> simp
            rw [if_neg (by simp [hnd])] at h
            obtain ⟨tl, rfl⟩ := lineStarts_cons_elim '-' _ _ hmn
            have hrec := ih (o + 1) n (k + 1) o2 n2 k2 h
            rw [specHunkBody_cons_skip _ _ hb2, specOldCount_cons, specNewCount_cons]
            rw [if_pos (by simp [hmn, hnd]),
                if_neg (by simp [hsp2, (show startsW "+" ('-' :: tl) = false from rfl)])]
            simp only [List.length_cons]
            omega
          · rw [if_neg (by simp [hmn])] at h
            have hmn2 : startsW "-" ln = false := by
              revert hmn; cases startsW "-" ln <;> simp
            by_cases hps : startsW "+" ln = true
            · rw [if_pos hps] at h
              have hnd : startsW "+++ " ln = false := by
                revert hb2; unfold isHunkBoundary
                cases startsW "+++ " ln <;> simp
              rw [if_neg (by simp [hnd])] at h
              have hrec := ih o (n + 1) (k + 1) o2 n2 k2 h
              rw [specHunkBody_cons_skip _ _ hb2, specOldCount_cons, specNewCount_cons]
              rw [if_neg (by simp [hsp2, hmn2]), if_pos (by simp [hps, hnd])]
              simp only [List.length_cons]
              omega
            · rw [if_neg (by simp [hps])] at h
              exact absurd h (by simp)

theorem validateHunks_ok_counts :
    ∀ (N : Nat) (l : List DLine) (hk : Nat), l.length ≤ N →
      validateHunks l hk = DiffCheck.ok →
      ∀ (i : Nat) (ln : DLine) (tl : List DLine) (oc nc : Nat),
        l.drop i = ln :: tl → hunkHeader ln = some (oc, nc) →
        specOldCount (specHunkBody tl) = oc ∧ specNewCount (specHunkBody tl) = nc := by
  intro N
  induction N with
  | zero =>
    intro l hk hlen hok i ln tl oc nc hdrop hh
    have : l = [] := List.eq_nil_of_length_eq_zero (by omega)
    subst this
    simp at hdrop
  | succ N ih =>
    intro l hk hlen hok i ln tl oc nc hdrop hh
    cases l with
    | nil => simp at hdrop
    | cons x rest =>
      rw [validateHunks] at hok
      cases hx : hunkHeader x with
      | none =>
        rw [hx] at hok
        cases i with
        | zero =>
          simp at hdrop
          rw [hdrop.1] at hx
          rw [hx] at hh
          exact absurd hh (by simp)
        | succ j =>
          rw [List.drop_succ_cons] at hdrop
          exact ih rest hk (by simpa using Nat.le_of_succ_le_succ (by simpa using hlen))
            hok j ln tl oc nc hdrop hh
      | some p =>
        obtain ⟨oc0, nc0⟩ := p
        rw [hx] at hok
        cases hs : scanBody rest 0 0 0 with
        | badLine bad =>
          rw [hs] at hok
          exact absurd (show DiffCheck.invalidHunkLine bad = DiffCheck.ok from hok)
            (by simp)
        | counts o n k =>
          rw [hs] at hok
          have hok2 : (if (o != oc0 || n != nc0) = true then
              DiffCheck.countMismatch x oc0 nc0 o n
            else validateHunks (rest.drop k) (hk + 1)) = DiffCheck.ok := hok
          by_cases hmm : (o != oc0 || n != nc0) = true
          · rw [if_pos hmm] at hok2
            exact absurd hok2 (by simp)
          · rw [if_neg hmm] at hok2
            have hok := hok2
            have heq : o = oc0 ∧ n = nc0 := by
              simp at hmm
              exact hmm
            have hscan := scanBody_of_counts rest 0 0 0 o n k hs
            cases i with
            | zero =>
              simp at hdrop
              obtain ⟨rfl, rfl⟩ := hdrop
              rw [hx] at hh
              injection hh with hh
              injection hh with hh1 hh2
              subst hh1
              subst hh2
              refine ⟨?_, ?_⟩ <;> omega
            | succ j =>
              rw [List.drop_succ_cons] at hdrop
              by_cases hjk : j < (specHunkBody rest).length
              · have hlx : rest[j]? = some ln := by
                  rw [← List.head?_drop, hdrop]
                  rfl
                have hsat : (fun ln => !isHunkBoundary ln) ln = true := by
                  apply takeWhile_getElem_sat _ rest j ln _ hlx
                  simpa [specHunkBody] using hjk
                have hbf : isHunkBoundary ln = false := by
                  simpa using hsat
                rw [header_none_of_not_boundary ln hbf] at hh
                exact absurd hh (by simp)
              · have hk2 : k = (specHunkBody rest).length := by omega
                have hdrop2 : (rest.drop k).drop (j - k) = ln :: tl := by
                  rw [List.drop_drop]
                  rw [(show k + (j - k) = j by omega)]
                  exact hdrop
                have hlen2 : (rest.drop k).length ≤ N := by
                  simp only [List.length_drop]
                  simp at hlen
                  omega
                exact ih (rest.drop k) (hk + 1) hlen2 hok (j - k) ln tl oc nc hdrop2 hh

theorem validate_ok_hunks (lines : List DLine)
    (h : validate_unified_diff lines = DiffCheck.ok) :
    validateHunks lines 0 = DiffCheck.ok := by
  unfold validate_unified_diff at h
  by_cases h1 : isBlankText lines = true
  · rw [if_pos h1] at h; exact absurd h (by simp)
  · rw [if_neg (by simp_all)] at h
    by_cases h2 : lines.any (hasSub "...") = true
    · rw [if_pos h2] at h; exact absurd h (by simp)
    · rw [if_neg (by simp_all)] at h
      by_cases h3 : is_unified_diff lines = true
      · rwa [if_neg (by simp [h3])] at h
      · rw [if_pos (by simp_all)] at h
        exact absurd h (by simp)

theorem scanBody_okLine (ln : DLine) (rest : List DLine) (o n k : Nat)
    (h : startsW " " ln = true ∨ (startsW "-" ln = true ∧ startsW "--- " ln = false)) :
    scanBody (ln :: rest) o n k
      = scanBody rest (o + 1) (n + (if startsW " " ln = true then 1 else 0)) (k + 1) := by
  rcases h with hsp | ⟨hmn, hnd⟩
  · obtain ⟨tl, rfl⟩ := lineStarts_cons_elim ' ' _ _ hsp
    conv_lhs => rw [scanBody]
    simp [(show isHunkBoundary (' ' :: tl) = false from rfl),
      (show startsW "\\ No newline at end of file" (' ' :: tl) = false from rfl),
      (show startsW " " (' ' :: tl) = true from rfl)]
  · obtain ⟨tl, rfl⟩ := lineStarts_cons_elim '-' _ _ hmn
    have hb : isHunkBoundary ('-' :: tl) = false := by
      simp [isHunkBoundary, (show startsW "@@ " ('-' :: tl) = false from rfl),
        (show startsW "diff --git" ('-' :: tl) = false from rfl), hnd,
        (show startsW "+++ " ('-' :: tl) = false from rfl)]
    conv_lhs => rw [scanBody]
    simp [hb, (show startsW "\\ No newline at end of file" ('-' :: tl) = false from rfl),
      (show startsW " " ('-' :: tl) = false from rfl), hnd,
      (show startsW "-" ('-' :: tl) = true from rfl)]

theorem newPred_okLine (ln : DLine)
    (h : startsW " " ln = true ∨ (startsW "-" ln = true ∧ startsW "--- " ln = false)) :
    (startsW " " ln || (startsW "+" ln && !startsW "+++ " ln)) = startsW " " ln := by
  rcases h with hsp | ⟨hmn, _⟩
  · obtain ⟨tl, rfl⟩ := lineStarts_cons_elim ' ' _ _ hsp
    rfl
  · obtain ⟨tl, rfl⟩ := lineStarts_cons_elim '-' _ _ hmn
    rfl

theorem validateHunks_skip (ln : DLine) (rest : List DLine) (hk : Nat)
    (h : hunkHeader ln = none) :
    validateHunks (ln :: rest) hk = validateHunks rest hk := by
  rw [validateHunks, h]

/-- Claim C3: validate_unified_diff accepts a patch only if every hunk
    header's declared counts match the body's context/minus and
    context/plus line counts; and a diff whose header declares -1,5 +1,5
    over a body of four context/minus lines fails with the exact
    diagnostic expected_old = 5, seen_old = 4. -/
theorem c3_validate_unified_diff_counts :
    (∀ lines : List DLine, validate_unified_diff lines = DiffCheck.ok →
      ∀ (i : Nat) (ln : DLine) (tl : List DLine) (oc nc : Nat),
        lines.drop i = ln :: tl → hunkHeader ln = some (oc, nc) →
        specOldCount (specHunkBody tl) = oc ∧ specNewCount (specHunkBody tl) = nc) ∧
    (∀ b1 b2 b3 b4 : DLine,
      (startsW " " b1 = true ∨ (startsW "-" b1 = true ∧ startsW "--- " b1 = false)) →
      (startsW " " b2 = true ∨ (startsW "-" b2 = true ∧ startsW "--- " b2 = false)) →
      (startsW " " b3 = true ∨ (startsW "-" b3 = true ∧ startsW "--- " b3 = false)) →
      (startsW " " b4 = true ∨ (startsW "-" b4 = true ∧ startsW "--- " b4 = false)) →
      hasSub "..." b1 = false → hasSub "..." b2 = false →
      hasSub "..." b3 = false → hasSub "..." b4 = false →
      validate_unified_diff (c3Preamble ++ [b1, b2, b3, b4])
        = DiffCheck.countMismatch c3Header 5 5 4 (specNewCount [b1, b2, b3, b4])) := by
  constructor
  · intro lines hok i ln tl oc nc hdrop hh
    exact validateHunks_ok_counts lines.length lines 0 (by omega)
      (validate_ok_hunks lines hok) i ln tl oc nc hdrop hh
  · intro b1 b2 b3 b4 h1 h2 h3 h4 nd1 nd2 nd3 nd4
    have hpre : c3Preamble ++ [b1, b2, b3, b4]
        = ("diff --git a/f b/f").toList :: ("--- a/f").toList
          :: ("+++ b/f").toList :: c3Header :: [b1, b2, b3, b4] := rfl
    rw [hpre]
    simp only [validate_unified_diff]
    rw [if_neg (by
      rw [(show isBlankText (("diff --git a/f b/f").toList :: ("--- a/f").toList
          :: ("+++ b/f").toList :: c3Header :: [b1, b2, b3, b4]) = false from rfl)]
      simp)]
    rw [if_neg (by
      rw [List.any_cons, List.any_cons, List.any_cons, List.any_cons,
          List.any_cons, List.any_cons, List.any_cons, List.any_cons, List.any_nil,
          (show hasSub "..." ("diff --git a/f b/f").toList = false by decide),
          (show hasSub "..." ("--- a/f").toList = false by decide),
          (show hasSub "..." ("+++ b/f").toList = false by decide),
          (show hasSub "..." c3Header = false by decide),
          nd1, nd2, nd3, nd4]
      simp)]
    rw [if_neg (by
      rw [(show is_unified_diff (("diff --git a/f b/f").toList :: ("--- a/f").toList
          :: ("+++ b/f").toList :: c3Header :: [b1, b2, b3, b4]) = true from rfl)]
      simp)]
    rw [validateHunks_skip _ _ _ (by decide),
        validateHunks_skip _ _ _ (by decide),
        validateHunks_skip _ _ _ (by decide)]
    rw [validateHunks, (show hunkHeader c3Header = some (5, 5) by decide)]
    rw [scanBody_okLine b1 _ _ _ _ h1, scanBody_okLine b2 _ _ _ _ h2,
        scanBody_okLine b3 _ _ _ _ h3, scanBody_okLine b4 _ _ _ _ h4]
    have hS : specNewCount [b1, b2, b3, b4]
        = 0 + (if startsW " " b1 = true then 1 else 0)
          + (if startsW " " b2 = true then 1 else 0)
          + (if startsW " " b3 = true then 1 else 0)
          + (if startsW " " b4 = true then 1 else 0) := by
      rw [specNewCount_cons, newPred_okLine b1 h1,
          specNewCount_cons, newPred_okLine b2 h2,
          specNewCount_cons, newPred_okLine b3 h3,
          specNewCount_cons, newPred_okLine b4 h4]
      simp [specNewCount]
      omega
    rw [← hS]
    rfl

/-- Claim C3 witness: the -1,5 +1,5 diff with body lines " a", " b", "-c",
    " d" fails with expected_old 5 and seen_old 4. -/
theorem c3_validate_unified_diff_counts_witness :
    validate_unified_diff
        (c3Preamble ++ [(" a").toList, (" b").toList, ("-c").toList, (" d").toList])
      = DiffCheck.countMismatch c3Header 5 5 4
          (specNewCount [(" a").toList, (" b").toList, ("-c").toList, (" d").toList]) :=
  c3_validate_unified_diff_counts.2 _ _ _ _ (Or.inl (by decide)) (Or.inl (by decide))
    (Or.inr ⟨by decide, by decide⟩) (Or.inl (by decide))
    (by decide) (by decide) (by decide) (by decide)

/-- Claim C6 counterexample: in the two-iteration run of c6Script,
    force_structured_edits flips during iteration 1, the phase ends after
    four repeated rejections, and iteration 2 - whose patch phase
    re-initializes the flag to false (core_ablation.py line 1247) -
    applies a unified diff, so a unified-diff patch is applied after the
    flag had become true earlier in the run. -/
theorem c6_counterexample :
    runIters c6Cfg c6Script
      = [PEvent.forceFlipped, PEvent.rejectedNonJson, PEvent.rejectedNonJson,
         PEvent.rejectedNonJson, PEvent.rejectedNonJson,
         PEvent.appliedUnified false] ∧
    appliedUnifiedAfterForce (runIters c6Cfg c6Script) false = true := by
  exact ⟨rfl, rfl⟩

theorem setFailSummary_force (st : PSt) (f : FailType) (s : PSig) :
    (setFailSummary st f s).force = st.force := rfl

theorem gateOkTail_force (cfg : PCfg) (st : PSt) (p : ApplyPath) :
    (gateOkTail cfg st p).fst.force = st.force := by
  unfold gateOkTail
  split_ifs <;> rfl

theorem afterApplyTail_force (cfg : PCfg) (st : PSt) (p : ApplyPath) :
    (afterApplyTail cfg st p).fst.force = st.force := by
  unfold afterApplyTail
  dsimp only
  split_ifs <;> first | rfl | exact gateOkTail_force cfg st p

theorem applySection_no_false_event (cfg : PCfg) (st : PSt)
    (already hasDG : Bool) (p : ApplyPath) :
    (applySection cfg st already true hasDG p).fst.force = st.force ∧
    PEvent.appliedUnified false ∉ (applySection cfg st already true hasDG p).snd.fst := by
  unfold applySection
  dsimp only
  split_ifs <;>
    refine ⟨?_, by simp⟩ <;>
    first | rfl | exact afterApplyTail_force cfg _ p

theorem jsonStep_no_false_event (cfg : PCfg) (st : PSt) (j : JShape) :
    (jsonStep cfg st j).fst.force = st.force ∧
    PEvent.appliedUnified false ∉ (jsonStep cfg st j).snd.fst := by
  unfold jsonStep
  split
  · dsimp only
    split_ifs <;> exact ⟨rfl, by simp⟩
  · cases j with
    | emptyList hasDG path => exact applySection_no_false_event cfg st _ _ _
    | badCands sig =>
        dsimp only
        split_ifs <;> exact ⟨rfl, by simp⟩
    | cands cs after =>
        dsimp only
        split
        · split_ifs <;> exact ⟨rfl, by simp⟩
        · split
          · exact applySection_no_false_event cfg st _ _ _
          · split_ifs <;> exact ⟨rfl, by simp⟩
          · split_ifs <;> exact ⟨rfl, by simp⟩

theorem contentStep_force_rejects (cfg : PCfg) (st : PSt) (c : PContent)
    (h : st.force = true) :
    (contentStep cfg st c).fst.force = true ∧
    PEvent.appliedUnified false ∉ (contentStep cfg st c).snd.fst := by
  unfold contentStep
  cases c with
  | empty =>
    dsimp only
    split_ifs <;> exact ⟨h, by simp⟩
  | json j =>
    have hj := jsonStep_no_false_event cfg st j
    exact ⟨hj.1.trans h, hj.2⟩
  | nonJson hasDG vErr p =>
    dsimp only
    rw [if_pos h]
    split_ifs <;> exact ⟨h, by simp⟩

theorem patchStep_force_rejects (cfg : PCfg) (st : PSt) (t : PTurn)
    (h : st.force = true) :
    (patchStep cfg st t).fst.force = true ∧
    PEvent.appliedUnified false ∉ (patchStep cfg st t).snd.fst := by
  unfold patchStep
  by_cases h1 : cfg.maxPatchApi ≤ st.apiCount
  · rw [if_pos h1]
    exact ⟨h, by simp⟩
  · rw [if_neg h1]
    by_cases h2 : cfg.maxConsecDirect ≤ st.consecDirect
    · rw [if_pos h2]
      exact ⟨h, by simp⟩
    · rw [if_neg h2]
      dsimp only
      cases t with
      | tools k => exact ⟨h, by simp⟩
      | llmFail => split_ifs <;> exact ⟨h, by simp⟩
      | content c => exact contentStep_force_rejects cfg _ c h

/-- Claim C6 amended: within a single iteration's patch phase, once
    force_structured_edits is true it stays true for the rest of the
    phase, and no unified-diff application of a non-JSON output occurs
    during the remainder of that phase (every such output is rejected);
    the flag does not survive into the next iteration. -/
theorem c6_force_blocks_nonjson_apply_within_phase (cfg : PCfg) (st : PSt)
    (turns : List PTurn) (h : st.force = true) :
    (runPhase cfg st turns).fst.force = true ∧
    PEvent.appliedUnified false ∉ (runPhase cfg st turns).snd.fst := by
  induction turns generalizing st with
  | nil => simpa [runPhase] using h
  | cons t rest ih =>
    have hstep := patchStep_force_rejects cfg st t h
    rw [runPhase]
    rcases hps : patchStep cfg st t with ⟨st2, evs, ctl⟩
    rw [hps] at hstep
    cases ctl with
    | cont =>
      have hr := ih st2 hstep.1
      simp only []
      refine ⟨hr.1, ?_⟩
      simp only [List.mem_append]
      rintro (hm | hm)
      · exact hstep.2 hm
      · exact hr.2 hm
    | brk => exact hstep
    | ret ok => exact hstep

/-- Claim C6 amended witness: starting a phase with the flag already set,
    a non-JSON diff turn leaves the flag set and applies nothing. -/
theorem c6_force_blocks_witness :
    (runPhase c6Cfg { initPSt with force := true } [goodDiffTurn]).fst.force = true ∧
    PEvent.appliedUnified false
      ∉ (runPhase c6Cfg { initPSt with force := true } [goodDiffTurn]).snd.fst :=
  c6_force_blocks_nonjson_apply_within_phase c6Cfg { initPSt with force := true }
    [goodDiffTurn] rfl

/- Helper lemmas for the claim C1 development: list shapes around
   takeWhile/dropWhile and the headNotTool invariant. -/

theorem twLen_le {α : Type} (p : α → Bool) (l : List α) :
    (l.takeWhile p).length ≤ l.length := by
  conv_rhs => rw [← List.takeWhile_append_dropWhile p l]
  rw [List.length_append]
  omega

theorem drop_twLen {α : Type} (p : α → Bool) (l : List α) :
    l.drop (l.takeWhile p).length = l.dropWhile p := by
  induction l with
  | nil => rfl
  | cons a t ih =>
    by_cases h : p a
    · simp [List.takeWhile_cons, List.dropWhile_cons, h, ih]
    · simp [List.takeWhile_cons, List.dropWhile_cons, h]

theorem head_dropWhile_false {α : Type} (p : α → Bool) (l : List α) (a : α)
    (h : (l.dropWhile p).head? = some a) : p a = false := by
  induction l with
  | nil => simp [List.dropWhile] at h
  | cons b t ih =>
    rw [List.dropWhile_cons] at h
    by_cases hb : p b
    · rw [if_pos hb] at h
      exact ih h
    · rw [if_neg hb] at h
      rw [List.head?_cons, Option.some.injEq] at h
      rw [← h]
      exact Bool.eq_false_iff.mpr hb

theorem takeWhile_all_append {α : Type} (p : α → Bool) (A B : List α)
    (hA : ∀ x ∈ A, p x = true) (hB : ∀ m, B.head? = some m → p m = false) :
    (A ++ B).takeWhile p = A := by
  induction A with
  | nil =>
    cases B with
    | nil => rfl
    | cons b t =>
      have hb := hB b rfl
      simp [List.takeWhile_cons, hb]
  | cons a t ih =>
    have ha := hA a (List.mem_cons_self a t)
    simp [List.takeWhile_cons, ha,
      ih (fun x hx => hA x (List.mem_cons_of_mem a hx))]

theorem isToolMsg_iff (m : Msg) : isToolMsg m = true ↔ m.role = Role.tool := by
  simp [isToolMsg]

theorem hasCalls_iff (m : Msg) :
    hasCalls m = true ↔ (m.role = Role.assistant ∧ m.toolCalls ≠ 0) := by
  simp [hasCalls]

theorem isSystemMsg_iff (m : Msg) : isSystemMsg m = true ↔ m.role = Role.system := by
  simp [isSystemMsg]

theorem headNotTool_nil : headNotTool [] := by
  intro m hm
  simp at hm

theorem headNotTool_cons {m : Msg} {l : List Msg} (h : isToolMsg m = false) :
    headNotTool (m :: l) := by
  intro x hx
  rw [List.head?_cons, Option.some.injEq] at hx
  rw [← hx]
  exact h

theorem headNotTool_append {A B : List Msg} (hA : headNotTool A)
    (hB : headNotTool B) : headNotTool (A ++ B) := by
  cases A with
  | nil => simpa using hB
  | cons a t =>
    intro x hx
    rw [List.cons_append, List.head?_cons, Option.some.injEq] at hx
    rw [← hx]
    exact hA a rfl

theorem headNotTool_take (l : List Msg) (k : Nat) (h : headNotTool l) :
    headNotTool (l.take k) := by
  cases l with
  | nil => simpa using h
  | cons a t =>
    cases k with
    | zero => exact headNotTool_nil
    | succ j =>
      rw [List.take_succ_cons]
      exact headNotTool_cons (h a rfl)

theorem headNotTool_dropWhileTool (l : List Msg) :
    headNotTool (l.dropWhile isToolMsg) := by
  intro m hm
  exact head_dropWhile_false isToolMsg l m hm

theorem headNotTool_dropTW (l : List Msg) :
    headNotTool (l.drop (l.takeWhile isToolMsg).length) := by
  rw [drop_twLen]
  exact headNotTool_dropWhileTool l

theorem isToolMsg_false_of_ne {m : Msg} (h : m.role ≠ Role.tool) :
    isToolMsg m = false := by
  cases hb : isToolMsg m with
  | false => rfl
  | true => exact absurd ((isToolMsg_iff m).mp hb) h

theorem hasCalls_false_single {m : Msg} (h : m.role = Role.assistant → m.toolCalls = 0) :
    hasCalls m = false := by
  cases hb : hasCalls m with
  | false => rfl
  | true =>
    obtain ⟨h1, h2⟩ := (hasCalls_iff m).mp hb
    exact absurd (h h1) h2

theorem hasCalls_true_of {m : Msg} (h1 : m.role = Role.assistant)
    (h2 : m.toolCalls ≠ 0) : hasCalls m = true :=
  (hasCalls_iff m).mpr ⟨h1, h2⟩

theorem WFP_head_not_tool {l : List Msg} (h : WFP l) : headNotTool l := by
  cases h with
  | nil => exact headNotTool_nil
  | single m rest hnt _ _ => exact headNotTool_cons (isToolMsg_false_of_ne hnt)
  | block m run rest hrole _ _ _ _ =>
    exact headNotTool_cons (isToolMsg_false_of_ne (by rw [hrole]; intro hx; cases hx))

theorem WFP_awfConv {l : List Msg} (h : WFP l) : awfConv l = true := by
  induction h with
  | nil => rw [awfConv]
  | single m rest hnt hc _ ih =>
    rw [awfConv, if_neg (by simp [isToolMsg_false_of_ne hnt]),
      if_neg (by simp [hasCalls_false_single hc])]
    exact ih
  | block m run rest hrole hcnt hpos hall hwf ih =>
    have hct : hasCalls m = true := hasCalls_true_of hrole (by omega)
    have htw : (run ++ rest).takeWhile isToolMsg = run :=
      takeWhile_all_append _ run rest
        (fun x hx => (isToolMsg_iff x).mpr (hall x hx)) (WFP_head_not_tool hwf)
    rw [awfConv, if_neg (by simp [isToolMsg_false_of_ne (by rw [hrole]; intro hx; cases hx)]),
      if_pos hct, htw, List.drop_left]
    simp [hcnt, ih]

theorem WFP_okShape {l : List Msg} (h : WFP l) : okShape l = true := by
  induction h with
  | nil => rw [okShape]
  | single m rest hnt hc _ ih =>
    rw [okShape, if_neg (by simp [hasCalls_false_single hc])]
    exact ih
  | block m run rest hrole hcnt hpos hall hwf ih =>
    have hct : hasCalls m = true := hasCalls_true_of hrole (by omega)
    have htw : (run ++ rest).takeWhile isToolMsg = run :=
      takeWhile_all_append _ run rest
        (fun x hx => (isToolMsg_iff x).mpr (hall x hx)) (WFP_head_not_tool hwf)
    rw [okShape, if_pos hct, htw, List.drop_left]
    simp [hcnt, ih]

theorem wfConv_toWFP_aux : ∀ (n : Nat) (l : List Msg), l.length ≤ n →
    wfConv l = true → WFP l := by
  intro n
  induction n with
  | zero =>
    intro l hl _
    cases l with
    | nil => exact WFP.nil
    | cons m rest => simp at hl
  | succ k ih =>
    intro l hl hwf
    cases l with
    | nil => exact WFP.nil
    | cons m rest =>
      have hrl : rest.length ≤ k := by
        simp only [List.length_cons] at hl
        omega
      rw [wfConv] at hwf
      cases hmt : isToolMsg m with
      | true =>
        rw [if_pos (by rw [hmt])] at hwf
        exact absurd hwf (by simp)
      | false =>
        rw [if_neg (by simp [hmt])] at hwf
        cases hc : hasCalls m with
        | false =>
          rw [if_neg (by simp [hc])] at hwf
          refine WFP.single m rest ?_ ?_ (ih rest hrl hwf)
          · intro hx
            rw [(isToolMsg_iff m).mpr hx] at hmt
            cases hmt
          · intro hrole
            by_contra hnc
            rw [hasCalls_true_of hrole hnc] at hc
            cases hc
        | true =>
          rw [if_pos (by rw [hc])] at hwf
          have hparts := (Bool.and_eq_true _ _).mp hwf
          have hlen : (rest.takeWhile isToolMsg).length = m.toolCalls := by
            simpa using hparts.1
          have hrest : WFP (rest.drop (rest.takeWhile isToolMsg).length) := by
            apply ih _ ?_ hparts.2
            rw [List.length_drop]
            omega
          obtain ⟨hrole, hnc⟩ := (hasCalls_iff m).mp hc
          have hblocked := WFP.block m (rest.takeWhile isToolMsg)
            (rest.drop (rest.takeWhile isToolMsg).length) hrole hlen.symm
            (by omega)
            (fun x hx => (isToolMsg_iff x).mp (List.mem_takeWhile_imp hx))
            hrest
          rw [drop_twLen, List.takeWhile_append_dropWhile] at hblocked
          exact hblocked

theorem wfConv_toWFP {l : List Msg} (h : wfConv l = true) : WFP l :=
  wfConv_toWFP_aux l.length l le_rfl h

theorem WFP_drop_nontool {l : List Msg} (h : WFP l) :
    ∀ (i : Nat) (m : Msg), l[i]? = some m → isToolMsg m = false →
    WFP (l.drop i) := by
  induction h with
  | nil =>
    intro i m hm _
    simp at hm
  | single m' rest hnt hc hwf ih =>
    intro i m hm hmt
    cases i with
    | zero => exact WFP.single m' rest hnt hc hwf
    | succ j =>
      rw [List.getElem?_cons_succ] at hm
      rw [List.drop_succ_cons]
      exact ih j m hm hmt
  | block m' run rest hrole hcnt hpos hall hwf ih =>
    intro i m hm hmt
    cases i with
    | zero => exact WFP.block m' run rest hrole hcnt hpos hall hwf
    | succ j =>
      rw [List.getElem?_cons_succ] at hm
      rw [List.drop_succ_cons]
      by_cases hj : j < run.length
      · exfalso
        rw [List.getElem?_append, if_pos hj] at hm
        exact absurd ((isToolMsg_iff m).mpr (hall m (List.getElem?_mem hm)))
          (by simp [hmt])
      · have hj' : run.length ≤ j := Nat.le_of_not_lt hj
        rw [List.getElem?_append_right hj'] at hm
        rw [List.drop_append_eq_append_drop, List.drop_eq_nil_of_le hj',
          List.nil_append]
        exact ih (j - run.length) m hm hmt

theorem WFP_filter_nonsystem {l : List Msg} (h : WFP l) :
    WFP (l.filter fun m => !isSystemMsg m) := by
  induction h with
  | nil => exact WFP.nil
  | single m rest hnt hc _ ih =>
    rw [List.filter_cons]
    by_cases hs : (!isSystemMsg m) = true
    · rw [if_pos hs]
      exact WFP.single m _ hnt hc ih
    · rw [if_neg hs]
      exact ih
  | block m run rest hrole hcnt hpos hall _ ih =>
    have hm : (!isSystemMsg m) = true := by
      simp [isSystemMsg, hrole]
    have hrun : run.filter (fun x => !isSystemMsg x) = run := by
      apply List.filter_eq_self.mpr
      intro x hx
      simp [isSystemMsg, hall x hx]
    rw [List.filter_cons, if_pos hm, List.filter_append, hrun]
    exact WFP.block m run _ hrole hcnt hpos hall ih

theorem removeIncomplete_headNotTool_aux : ∀ (n : Nat) (l : List Msg),
    l.length ≤ n → headNotTool l → headNotTool (removeIncomplete l) := by
  intro n
  induction n with
  | zero =>
    intro l hl _
    cases l with
    | nil => rw [removeIncomplete]; exact headNotTool_nil
    | cons m rest => simp at hl
  | succ k ih =>
    intro l hl h
    cases l with
    | nil => rw [removeIncomplete]; exact headNotTool_nil
    | cons m rest =>
      have hrl : rest.length ≤ k := by
        simp only [List.length_cons] at hl
        omega
      rw [removeIncomplete]
      by_cases hc : hasCalls m
      · rw [if_pos hc]
        by_cases hlt : (rest.takeWhile isToolMsg).length < m.toolCalls
        · rw [if_pos hlt]
          apply ih _ ?_ (headNotTool_dropTW rest)
          rw [List.length_drop]
          omega
        · rw [if_neg hlt]
          exact headNotTool_cons (isToolMsg_false_of_ne
            (by rw [((hasCalls_iff m).mp hc).1]; intro hx; cases hx))
      · rw [if_neg hc]
        exact headNotTool_cons (h m rfl)

theorem removeIncomplete_headNotTool (l : List Msg) (h : headNotTool l) :
    headNotTool (removeIncomplete l) :=
  removeIncomplete_headNotTool_aux l.length l le_rfl h

theorem okShape_removeIncomplete_aux : ∀ (n : Nat) (l : List Msg),
    l.length ≤ n → awfConv l = true → okShape (removeIncomplete l) = true := by
  intro n
  induction n with
  | zero =>
    intro l hl _
    cases l with
    | nil => rw [removeIncomplete, okShape]
    | cons m rest => simp at hl
  | succ k ih =>
    intro l hl hawf
    cases l with
    | nil => rw [removeIncomplete, okShape]
    | cons m rest =>
      have hrl : rest.length ≤ k := by
        simp only [List.length_cons] at hl
        omega
      rw [awfConv] at hawf
      cases hmt : isToolMsg m with
      | true =>
        rw [if_pos (by rw [hmt])] at hawf
        exact absurd hawf (by simp)
      | false =>
        rw [if_neg (by simp [hmt])] at hawf
        rw [removeIncomplete]
        by_cases hc : hasCalls m
        · rw [if_pos hc] at hawf ⊢
          have hparts := (Bool.and_eq_true _ _).mp hawf
          have hle : (rest.takeWhile isToolMsg).length ≤ m.toolCalls :=
            of_decide_eq_true hparts.1
          by_cases hlt : (rest.takeWhile isToolMsg).length < m.toolCalls
          · rw [if_pos hlt]
            apply ih _ ?_ hparts.2
            rw [List.length_drop]
            omega
          · rw [if_neg hlt]
            have heq : (rest.takeWhile isToolMsg).length = m.toolCalls := by omega
            have hR : headNotTool
                (removeIncomplete (rest.drop (rest.takeWhile isToolMsg).length)) :=
              removeIncomplete_headNotTool _ (headNotTool_dropTW rest)
            have htw : ((rest.takeWhile isToolMsg)
                ++ removeIncomplete
                    (rest.drop (rest.takeWhile isToolMsg).length)).takeWhile isToolMsg
                = rest.takeWhile isToolMsg :=
              takeWhile_all_append _ _ _ (fun x hx => List.mem_takeWhile_imp hx) hR
            rw [okShape, if_pos hc, htw, List.drop_left, Bool.and_eq_true]
            refine ⟨by simp [heq], ?_⟩
            apply ih _ ?_ hparts.2
            rw [List.length_drop]
            omega
        · rw [if_neg hc] at hawf ⊢
          rw [okShape, if_neg hc]
          exact ih rest hrl hawf

theorem okShape_removeIncomplete (l : List Msg) (h : awfConv l = true) :
    okShape (removeIncomplete l) = true :=
  okShape_removeIncomplete_aux l.length l le_rfl h

theorem awfConv_take_append {l : List Msg} (h : WFP l) :
    ∀ (k : Nat) (X : List Msg), headNotTool X → awfConv X = true →
    awfConv (l.take k ++ X) = true := by
  induction h with
  | nil =>
    intro k X _ hXa
    simpa using hXa
  | single m rest hnt hc _ ih =>
    intro k X hX hXa
    cases k with
    | zero => simpa using hXa
    | succ j =>
      rw [List.take_succ_cons, List.cons_append, awfConv,
        if_neg (by simp [isToolMsg_false_of_ne hnt]),
        if_neg (by simp [hasCalls_false_single hc])]
      exact ih j X hX hXa
  | block m run rest hrole hcnt hpos hall hwf ih =>
    intro k X hX hXa
    cases k with
    | zero => simpa using hXa
    | succ j =>
      have hct : hasCalls m = true := hasCalls_true_of hrole (by omega)
      have hallb : ∀ x ∈ run, isToolMsg x = true :=
        fun x hx => (isToolMsg_iff x).mpr (hall x hx)
      rw [List.take_succ_cons, List.cons_append, awfConv,
        if_neg (by simp [isToolMsg_false_of_ne (by rw [hrole]; intro hx; cases hx)]),
        if_pos hct]
      by_cases hj : j ≤ run.length
      · have h1 : (run ++ rest).take j = run.take j := by
          rw [List.take_append_eq_append_take]
          have h0 : j - run.length = 0 := by omega
          rw [h0]
          simp
        rw [h1]
        have htw : (run.take j ++ X).takeWhile isToolMsg = run.take j :=
          takeWhile_all_append _ _ _
            (fun x hx => hallb x (List.take_subset j run hx)) hX
        rw [htw, List.drop_left]
        simp [hXa]
        omega
      · have hj' : run.length < j := Nat.lt_of_not_le hj
        have h1 : (run ++ rest).take j = run ++ rest.take (j - run.length) := by
          rw [List.take_append_eq_append_take, List.take_of_length_le (by omega)]
        rw [h1, List.append_assoc]
        have hrest2 : headNotTool (rest.take (j - run.length) ++ X) :=
          headNotTool_append (headNotTool_take rest _ (WFP_head_not_tool hwf)) hX
        rw [takeWhile_all_append _ run _ hallb hrest2, List.drop_left]
        have hrec := ih (j - run.length) X hX hXa
        simp [hcnt, hrec]

theorem mem_descRange (lo : Nat) : ∀ (hi i : Nat),
    i ∈ descRange lo hi ↔ (lo ≤ i ∧ i < hi) := by
  intro hi
  induction hi with
  | zero =>
    intro i
    rw [descRange]
    simp
  | succ h ihh =>
    intro i
    rw [descRange]
    by_cases hlo : lo ≤ h
    · rw [if_pos hlo]
      rw [List.mem_cons, ihh i]
      omega
    · rw [if_neg hlo]
      simp
      omega

theorem findSafeCutAux_cases (l : List Msg) (cut : Nat) :
    ∀ idxs : List Nat,
      findSafeCutAux l cut idxs = cut ∨
      ∃ i ∈ idxs, findSafeCutAux l cut idxs = i ∧ ∃ m, l[i]? = some m ∧
        hasCalls m = true ∧ 0 < runLenAt l i ∧ cut ≤ i + runLenAt l i := by
  intro idxs
  induction idxs with
  | nil => exact Or.inl rfl
  | cons a rest ih =>
    cases hy : l[a]? with
    | none =>
      simp only [findSafeCutAux, hy]
      rcases ih with h | ⟨i, hi, hres, hm⟩
      · exact Or.inl h
      · exact Or.inr ⟨i, List.mem_cons_of_mem a hi, hres, hm⟩
    | some m =>
      by_cases hc : hasCalls m
      · by_cases hq : 0 < runLenAt l a ∧ cut ≤ a + runLenAt l a
        · right
          refine ⟨a, List.mem_cons_self a rest, ?_, m, hy, hc, hq.1, hq.2⟩
          simp only [findSafeCutAux, hy]
          rw [if_pos hc, if_pos hq]
        · simp only [findSafeCutAux, hy]
          rw [if_pos hc, if_neg hq]
          rcases ih with h | ⟨i, hi, hres, hm⟩
          · exact Or.inl h
          · exact Or.inr ⟨i, List.mem_cons_of_mem a hi, hres, hm⟩
      · simp only [findSafeCutAux, hy]
        rw [if_neg hc]
        rcases ih with h | ⟨i, hi, hres, hm⟩
        · exact Or.inl h
        · exact Or.inr ⟨i, List.mem_cons_of_mem a hi, hres, hm⟩

theorem findSafeCutAux_eq_cut_no_owner (l : List Msg) (cut : Nat) :
    ∀ idxs : List Nat, (∀ i ∈ idxs, i < cut) →
    findSafeCutAux l cut idxs = cut →
    ∀ i ∈ idxs, ∀ m, l[i]? = some m → hasCalls m = true →
      ¬(0 < runLenAt l i ∧ cut ≤ i + runLenAt l i) := by
  intro idxs
  induction idxs with
  | nil =>
    intro _ _ i hi
    simp at hi
  | cons a rest ih =>
    intro hlt hres i hi m hm hcalls hq
    rcases List.mem_cons.mp hi with rfl | hi'
    · simp only [findSafeCutAux, hm] at hres
      rw [if_pos hcalls, if_pos hq] at hres
      exact absurd hres (Nat.ne_of_lt (hlt i (List.mem_cons_self i rest)))
    · have hres2 : findSafeCutAux l cut rest = cut := by
        cases hy : l[a]? with
        | none => simpa only [findSafeCutAux, hy] using hres
        | some y =>
          simp only [findSafeCutAux, hy] at hres
          by_cases hcy : hasCalls y
          · rw [if_pos hcy] at hres
            by_cases hqy : 0 < runLenAt l a ∧ cut ≤ a + runLenAt l a
            · rw [if_pos hqy] at hres
              exact absurd hres (Nat.ne_of_lt (hlt a (List.mem_cons_self a rest)))
            · rwa [if_neg hqy] at hres
          · rwa [if_neg hcy] at hres
      exact ih (fun x hx => hlt x (List.mem_cons_of_mem a hx)) hres2 i hi' m hm
        hcalls hq

theorem WFP_tool_block_decomp {l : List Msg} (h : WFP l) :
    ∀ (c : Nat) (x : Msg), l[c]? = some x → isToolMsg x = true →
    ∃ (A : List Msg) (m : Msg) (run rest : List Msg),
      l = A ++ m :: (run ++ rest) ∧
      m.role = Role.assistant ∧ m.toolCalls = run.length ∧ 0 < run.length ∧
      (∀ y ∈ run, y.role = Role.tool) ∧ WFP rest ∧
      A.length < c ∧ c ≤ A.length + run.length ∧
      (∀ Y, headNotTool Y → awfConv Y = true →
        awfConv (A ++ Y) = true ∧ headNotTool (A ++ Y)) := by
  induction h with
  | nil =>
    intro c x hx _
    simp at hx
  | single m' rest hnt hc hwf ih =>
    intro c x hx hxt
    cases c with
    | zero =>
      rw [List.getElem?_cons_zero, Option.some.injEq] at hx
      subst hx
      exact absurd ((isToolMsg_iff m').mp hxt) hnt
    | succ j =>
      rw [List.getElem?_cons_succ] at hx
      obtain ⟨A, m, run, rest', heq, h2, h3, h4, h5, h6, h7, h8, h9⟩ := ih j x hx hxt
      refine ⟨m' :: A, m, run, rest', ?_, h2, h3, h4, h5, h6, ?_, ?_, ?_⟩
      · rw [heq, List.cons_append]
      · simp only [List.length_cons]
        omega
      · simp only [List.length_cons]
        omega
      · intro Y hY hYa
        obtain ⟨ha, hh⟩ := h9 Y hY hYa
        rw [List.cons_append]
        constructor
        · rw [awfConv, if_neg (by simp [isToolMsg_false_of_ne hnt]),
            if_neg (by simp [hasCalls_false_single hc])]
          exact ha
        · exact headNotTool_cons (isToolMsg_false_of_ne hnt)
  | block m' run' rest hrole hcnt hpos hall hwf ih =>
    intro c x hx hxt
    cases c with
    | zero =>
      rw [List.getElem?_cons_zero, Option.some.injEq] at hx
      subst hx
      have hxr := (isToolMsg_iff m').mp hxt
      rw [hrole] at hxr
      cases hxr
    | succ j =>
      rw [List.getElem?_cons_succ] at hx
      by_cases hj : j < run'.length
      · refine ⟨[], m', run', rest, rfl, hrole, hcnt, hpos, hall, hwf, ?_, ?_, ?_⟩
        · simp only [List.length_nil]
          omega
        · simp only [List.length_nil]
          omega
        · intro Y hY hYa
          exact ⟨by simpa using hYa, by simpa using hY⟩
      · have hj' : run'.length ≤ j := Nat.le_of_not_lt hj
        rw [List.getElem?_append_right hj'] at hx
        obtain ⟨A, m, run, rest', heq, h2, h3, h4, h5, h6, h7, h8, h9⟩ :=
          ih (j - run'.length) x hx hxt
        refine ⟨m' :: (run' ++ A), m, run, rest', ?_, h2, h3, h4, h5, h6, ?_, ?_, ?_⟩
        · rw [heq]
          simp only [List.cons_append, List.append_assoc]
        · simp only [List.length_cons, List.length_append]
          omega
        · simp only [List.length_cons, List.length_append]
          omega
        · intro Y hY hYa
          obtain ⟨ha, hh⟩ := h9 Y hY hYa
          have hallb : ∀ z ∈ run', isToolMsg z = true :=
            fun z hz => (isToolMsg_iff z).mpr (hall z hz)
          constructor
          · rw [List.cons_append, List.append_assoc]
            rw [awfConv,
              if_neg (by simp [isToolMsg_false_of_ne (by rw [hrole]; intro hz; cases hz)]),
              if_pos (hasCalls_true_of hrole (by omega))]
            rw [takeWhile_all_append _ run' _ hallb hh, List.drop_left]
            simp [hcnt, ha]
          · rw [List.cons_append]
            exact headNotTool_cons
              (isToolMsg_false_of_ne (by rw [hrole]; intro hz; cases hz))

theorem pruned_awf {l : List Msg} (h : WFP l) (kf cut : Nat) (hkc : kf < cut) :
    awfConv (l.take kf ++ l.drop (findSafeCut l kf cut)) = true := by
  rcases findSafeCutAux_cases l cut (descRange kf cut) with hres |
    ⟨i, hi, hres, m, hm, hcalls, hrpos, hrcross⟩
  · rw [findSafeCut, hres]
    cases hx : l[cut]? with
    | none =>
      have hlen : l.length ≤ cut := List.getElem?_eq_none_iff.mp hx
      rw [List.drop_eq_nil_of_le hlen]
      exact awfConv_take_append h kf [] headNotTool_nil (by rw [awfConv])
    | some x =>
      cases hxt : isToolMsg x with
      | false =>
        have hW : WFP (l.drop cut) := WFP_drop_nontool h cut x hx hxt
        refine awfConv_take_append h kf _ ?_ (WFP_awfConv hW)
        intro z hz
        rw [List.head?_drop, hx, Option.some.injEq] at hz
        rw [← hz]
        exact hxt
      | true =>
        obtain ⟨A, m, run, rest, heq, hrole, hcnt, hposr, hall, hwfr, hlt, hcross,
          hprop⟩ := WFP_tool_block_decomp h cut x hx hxt
        have hdropA : l.drop (A.length + 1) = run ++ rest := by
          rw [heq, List.drop_append_eq_append_drop,
            List.drop_eq_nil_of_le (by omega), List.nil_append]
          have h1 : A.length + 1 - A.length = 1 := by omega
          rw [h1]
          rw [show (1 : Nat) = 0 + 1 from rfl, List.drop_succ_cons, List.drop_zero]
        have hrla : runLenAt l A.length = run.length := by
          rw [runLenAt, hdropA, takeWhile_all_append _ run rest
            (fun z hz => (isToolMsg_iff z).mpr (hall z hz)) (WFP_head_not_tool hwfr)]
        have hi0 : A.length < kf := by
          by_contra hge
          push_neg at hge
          have hmem : A.length ∈ descRange kf cut :=
            (mem_descRange kf cut A.length).mpr ⟨hge, hlt⟩
          have hm0 : l[A.length]? = some m := by
            rw [heq, List.getElem?_append_right (le_refl A.length)]
            simp
          have hcalls0 : hasCalls m = true := hasCalls_true_of hrole (by omega)
          exact findSafeCutAux_eq_cut_no_owner l cut (descRange kf cut)
            (fun i2 hi2 => ((mem_descRange kf cut i2).mp hi2).2) hres A.length hmem
            m hm0 hcalls0 ⟨by rw [hrla]; omega, by rw [hrla]; omega⟩
        have htake : l.take kf = A ++ m :: run.take (kf - A.length - 1) := by
          obtain ⟨d, hd⟩ : ∃ d, kf - A.length = d + 1 := ⟨kf - A.length - 1, by omega⟩
          rw [heq, List.take_append_eq_append_take,
            List.take_of_length_le (by omega : A.length ≤ kf), hd]
          simp only [Nat.add_sub_cancel]
          rw [List.take_succ_cons, List.take_append_eq_append_take]
          have h0 : d - run.length = 0 := by omega
          rw [h0]
          simp
        have hdrop : l.drop cut = run.drop (cut - A.length - 1) ++ rest := by
          obtain ⟨e, he⟩ : ∃ e, cut - A.length = e + 1 := ⟨cut - A.length - 1, by omega⟩
          rw [heq, List.drop_append_eq_append_drop,
            List.drop_eq_nil_of_le (by omega : A.length ≤ cut), List.nil_append, he]
          simp only [Nat.add_sub_cancel]
          rw [List.drop_succ_cons, List.drop_append_eq_append_drop]
          have h0 : e - run.length = 0 := by omega
          rw [h0]
          simp
        rw [htake, hdrop]
        have hassoc : (A ++ m :: run.take (kf - A.length - 1))
              ++ (run.drop (cut - A.length - 1) ++ rest)
            = A ++ (m :: ((run.take (kf - A.length - 1)
              ++ run.drop (cut - A.length - 1)) ++ rest)) := by
          simp only [List.cons_append, List.append_assoc]
        rw [hassoc]
        have hM : ∀ z ∈ run.take (kf - A.length - 1)
            ++ run.drop (cut - A.length - 1), isToolMsg z = true := by
          intro z hz
          rcases List.mem_append.mp hz with hz | hz
          · exact (isToolMsg_iff z).mpr (hall z (List.take_subset _ _ hz))
          · exact (isToolMsg_iff z).mpr (hall z (List.drop_subset _ _ hz))
        have hY : awfConv (m :: ((run.take (kf - A.length - 1)
            ++ run.drop (cut - A.length - 1)) ++ rest)) = true := by
          rw [awfConv,
            if_neg (by simp [isToolMsg_false_of_ne (by rw [hrole]; intro hz; cases hz)]),
            if_pos (hasCalls_true_of hrole (by omega))]
          rw [takeWhile_all_append _ _ rest hM (WFP_head_not_tool hwfr),
            List.drop_left, Bool.and_eq_true]
          refine ⟨?_, WFP_awfConv hwfr⟩
          rw [decide_eq_true_eq, List.length_append, List.length_take,
            List.length_drop, hcnt]
          omega
        exact (hprop _ (headNotTool_cons
          (isToolMsg_false_of_ne (by rw [hrole]; intro hz; cases hz))) hY).1
  · rw [findSafeCut, hres]
    have hrole : m.role = Role.assistant := ((hasCalls_iff m).mp hcalls).1
    have hmnt : isToolMsg m = false :=
      isToolMsg_false_of_ne (by rw [hrole]; intro hz; cases hz)
    have hW : WFP (l.drop i) := WFP_drop_nontool h i m hm hmnt
    refine awfConv_take_append h kf _ ?_ (WFP_awfConv hW)
    intro z hz
    rw [List.head?_drop, hm, Option.some.injEq] at hz
    rw [← hz]
    exact hmnt

theorem pruneCore_awf {l : List Msg} (h : WFP l) (kf kl : Nat) :
    awfConv (pruneCore kf kl l) = true := by
  rw [pruneCore]
  split_ifs with hlen
  · exact pruned_awf h kf (l.length - kl) (by omega)
  · exact WFP_awfConv h

theorem okShape_system_prefix (S T : List Msg)
    (hS : ∀ m ∈ S, isSystemMsg m = true) (hT : okShape T = true) :
    okShape (S ++ T) = true := by
  induction S with
  | nil => simpa using hT
  | cons s S2 ih =>
    have hs := hS s (List.mem_cons_self s S2)
    have hrole : s.role = Role.system := (isSystemMsg_iff s).mp hs
    rw [List.cons_append, okShape,
      if_neg (by simp [hasCalls_false_single (by rw [hrole]; intro hz; cases hz)])]
    exact ih fun m hm => hS m (List.mem_cons_of_mem s hm)

/-- Claim C1: on every well-formed conversation transcript (tool messages
    occur only as the exact response run of the preceding assistant
    message), the truncation of either phase returns a list in which every
    assistant message carrying N tool calls is immediately followed by
    exactly N tool messages, in order, before any other message; no
    dangling assistant with unmatched tool calls remains. -/
theorem c1_truncation_tool_pairing (msgs : List Msg) (h : wfConv msgs = true) :
    okShape (locTruncate msgs) = true ∧ okShape (patchTruncate msgs) = true := by
  have hW : WFP msgs := wfConv_toWFP h
  constructor
  · rw [locTruncate]
    split_ifs with h30
    · refine okShape_system_prefix _ _ ?_ ?_
      · intro m hm
        exact (List.mem_filter.mp hm).2
      · exact okShape_removeIncomplete _ (pruneCore_awf (WFP_filter_nonsystem hW) 3 15)
    · exact WFP_okShape hW
  · rw [patchTruncate]
    split_ifs with h30
    · exact okShape_removeIncomplete _ (pruneCore_awf hW 2 20)
    · exact WFP_okShape hW

theorem c1ConvEx_wf : wfConv c1ConvEx = true := by
  simp only [c1ConvEx]
  norm_num [List.range_succ]
  simp [wfConv, isToolMsg, hasCalls, List.takeWhile,
    (show (Role.assistant == Role.tool) = false from rfl),
    (show (Role.tool == Role.tool) = true from rfl),
    (show (Role.system == Role.tool) = false from rfl),
    (show (Role.user == Role.tool) = false from rfl),
    (show (Role.assistant == Role.assistant) = true from rfl),
    (show (Role.user == Role.assistant) = false from rfl),
    (show (Role.system == Role.assistant) = false from rfl),
    (show (Role.tool == Role.assistant) = false from rfl)]

/-- Claim C1 witness: the 31-message well-formed conversation c1ConvEx
    satisfies the hypothesis, and both truncations preserve the
    assistant/tool-response pairing on it. -/
theorem c1_truncation_tool_pairing_witness :
    wfConv c1ConvEx = true ∧
    (okShape (locTruncate c1ConvEx) = true ∧
     okShape (patchTruncate c1ConvEx) = true) :=
  ⟨c1ConvEx_wf, c1_truncation_tool_pairing c1ConvEx c1ConvEx_wf⟩
